import Mathlib

/-!
# js-calculator: the expression tokenizer and evaluator of `src/index.js`

A shallow embedding of `parse` (lines 198-236), of `evaluateExpression`
(lines 245-310) and of the display handlers `clearAll`, `clearElement`,
`handleBackspace`, `handleNumber`, `handlePoint` and `toggleNegation`
(lines 93-159), followed by the properties established about them.

Modelling conventions.

* A JavaScript string is a `List Char`.  The source indexes strings by UTF-16
  code unit; every character the code distinguishes (digits, `.`, `+ - * /`,
  the glyphs `× ÷ −`, white space) is a single code unit, and any other
  character takes the same "invalid character" branch whether it is one unit
  or two.
* A JavaScript number is a `JSNum`: an exact rational, or one of the three
  IEEE special values `Infinity`, `-Infinity`, `NaN`.  Numerals are read and
  finite values are combined exactly (no rounding, no overflow to infinity),
  and the two IEEE zeros are identified, so a quotient by zero takes its sign
  from the dividend alone.
* The section *Double precision* gives the second reading of the numbers, in
  which `parseFloat` and the operators round to the nearest IEEE 754 binary64
  value; it is the one used where a property is about precision.
* A thrown `Error` is the `Except.error` result, tagged by which `throw`
  statement raised it.
-/

namespace JsCalculator

/-! ## Numbers -/

/-- JavaScript number values: exact rationals plus the IEEE special values. -/
inductive JSNum where
  | fin (q : ℚ)
  | posInf
  | negInf
  | nan
  deriving DecidableEq

namespace JSNum

/-- Unary minus of JavaScript (`-x`). -/
def neg : JSNum → JSNum
  | fin q => fin (-q)
  | posInf => negInf
  | negInf => posInf
  | nan => nan

/-- The infinity of the given sign (`true` is negative). -/
def infOfSign (negative : Bool) : JSNum :=
  if negative then negInf else posInf

/-- Binary `+` of JavaScript on numbers. -/
def add : JSNum → JSNum → JSNum
  | fin a, fin b => fin (a + b)
  | fin _, posInf => posInf
  | fin _, negInf => negInf
  | posInf, fin _ => posInf
  | negInf, fin _ => negInf
  | posInf, posInf => posInf
  | negInf, negInf => negInf
  | posInf, negInf => nan
  | negInf, posInf => nan
  | nan, _ => nan
  | _, nan => nan

/-- Product of an infinity of sign `negative` with the finite value `q`. -/
def infTimes (negative : Bool) (q : ℚ) : JSNum :=
  if q = 0 then nan else infOfSign (if 0 < q then negative else !negative)

/-- Binary `*` of JavaScript on numbers. -/
def mul : JSNum → JSNum → JSNum
  | fin a, fin b => fin (a * b)
  | fin a, posInf => infTimes false a
  | fin a, negInf => infTimes true a
  | posInf, fin b => infTimes false b
  | negInf, fin b => infTimes true b
  | posInf, posInf => posInf
  | negInf, negInf => posInf
  | posInf, negInf => negInf
  | negInf, posInf => negInf
  | nan, _ => nan
  | _, nan => nan

/-- Binary `/` of JavaScript on numbers.  A non-zero finite value divided by
zero is an infinity, zero divided by zero is `NaN`; nothing is thrown. -/
def div : JSNum → JSNum → JSNum
  | fin a, fin b =>
      if b = 0 then (if a = 0 then nan else infOfSign (decide (a < 0)))
      else fin (a / b)
  | fin _, posInf => fin 0
  | fin _, negInf => fin 0
  | posInf, fin b => infOfSign (decide (b < 0))
  | negInf, fin b => infOfSign (!decide (b < 0))
  | posInf, posInf => nan
  | negInf, negInf => nan
  | posInf, negInf => nan
  | negInf, posInf => nan
  | nan, _ => nan
  | _, nan => nan

end JSNum

/-! ## Characters -/

/-- The regular expression `/\d/` on a single character: ASCII `0`-`9`. -/
def isDigit (char : Char) : Bool :=
  decide ('0'.toNat ≤ char.toNat ∧ char.toNat ≤ '9'.toNat)

/-- The test `'+-*/'.includes(char)` on a single character. -/
def isOperatorChar (char : Char) : Bool :=
  char = '+' || char = '-' || char = '*' || char = '/'

/-- The test `char.trim() === ''` on a single character: the ECMAScript
white space and line terminator code points. -/
def isWhitespace (char : Char) : Bool :=
  let n := char.toNat
  n = 0x09 || n = 0x0A || n = 0x0B || n = 0x0C || n = 0x0D || n = 0x20 ||
  n = 0xA0 || n = 0x1680 || decide (0x2000 ≤ n ∧ n ≤ 0x200A) ||
  n = 0x2028 || n = 0x2029 || n = 0x202F || n = 0x205F || n = 0x3000 ||
  n = 0xFEFF

/-- The characters `parse` accepts without throwing. -/
def isAccepted (char : Char) : Bool :=
  isDigit char || char = '.' || isOperatorChar char || isWhitespace char

/-! ## `parseFloat` -/

/-- Value of a run of decimal digits read as a natural number. -/
def digitsValue (digits : List Char) : ℕ :=
  digits.foldl (fun acc d => 10 * acc + (d.toNat - '0'.toNat)) 0

/-- The built-in `parseFloat` on the strings `parse` hands to it: an optional
leading `-`, then characters among the digits and `.`.  The longest prefix of
the form `digits`, `digits.digits?` or `.digits` is converted; when there is
no such prefix the result is `NaN`. -/
def parseFloat (text : List Char) : JSNum :=
  let negative := text.head? = some '-'
  let body := if negative then text.tail else text
  let intDigits := body.takeWhile isDigit
  let fracDigits :=
    match body.dropWhile isDigit with
    | '.' :: rest => rest.takeWhile isDigit
    | _ => []
  if intDigits = [] ∧ fracDigits = [] then JSNum.nan
  else
    let magnitude : ℚ :=
      (digitsValue (intDigits ++ fracDigits) : ℚ) / (10 : ℚ) ^ fracDigits.length
    JSNum.fin (if negative then -magnitude else magnitude)

/-! ## Tokens and errors -/

/-- An element of the `tokens` / `parts` array: a number, or the one-character
string pushed for an operator. -/
inductive Token where
  | num (value : JSNum)
  | op (char : Char)
  deriving DecidableEq

/-- The `throw` statements of `parse` and `evaluateExpression`. -/
inductive CalcError where
  /-- `Invalid character in expression: <char>` (line 226). -/
  | invalidCharacter (char : Char)
  /-- `Invalid expression: Expected a number after "-"` (line 271). -/
  | expectedNumberAfterMinus
  /-- `Invalid expression: Expected numbers around "<char>"` (lines 282, 293). -/
  | expectedNumbersAround (char : Char)
  /-- `Invalid expression: Unexpected token` (line 302). -/
  | unexpectedToken
  deriving DecidableEq

/-- The errors raised by the evaluator loop, all worded `Invalid expression`. -/
def CalcError.isMalformed : CalcError → Bool
  | .invalidCharacter _ => false
  | _ => true

/-! ## `parse` -/

/-- The two loop variables of `parse`. -/
structure ParseState where
  tokens : List Token
  currentNumber : List Char
  deriving DecidableEq

/-- The test `'+-*/'.includes(tokens[tokens.length - 1])`: the last token is
converted to a string and searched for in `'+-*/'`; the text of a number
never occurs there, a pushed operator character does. -/
def lastIsOperator (tokens : List Token) : Bool :=
  match tokens.getLast? with
  | some (Token.op c) => isOperatorChar c
  | _ => false

/-- The statement `if (currentNumber) tokens.push(parseFloat(currentNumber))`. -/
def flush (tokens : List Token) (currentNumber : List Char) : List Token :=
  if currentNumber ≠ [] then tokens ++ [Token.num (parseFloat currentNumber)]
  else tokens

/-- One iteration of the `for` loop of `parse` (lines 203-227). -/
def parseStep (st : ParseState) (char : Char) : Except CalcError ParseState :=
  if isDigit char || char = '.' then
    .ok { st with currentNumber := st.currentNumber ++ [char] }
  else if isOperatorChar char then
    let tokens := flush st.tokens st.currentNumber
    if char = '-' ∧ (tokens.length = 0 ∨ lastIsOperator tokens) then
      .ok { tokens := tokens, currentNumber := ['-'] }
    else
      .ok { tokens := tokens ++ [Token.op char], currentNumber := [] }
  else if isWhitespace char then
    .ok st
  else
    .error (CalcError.invalidCharacter char)

/-- The `for` loop of `parse`, from a given state over the remaining
characters. -/
def parseLoop : List Char → ParseState → Except CalcError ParseState
  | [], st => .ok st
  | char :: rest, st =>
      match parseStep st char with
      | .ok st' => parseLoop rest st'
      | .error e => .error e

/-- The function `parse` (lines 198-236). -/
def parse (expression : List Char) : Except CalcError (List Token) :=
  match parseLoop expression { tokens := [], currentNumber := [] } with
  | .ok st => .ok (flush st.tokens st.currentNumber)
  | .error e => .error e

/-! ## `evaluateExpression` -/

/-- The three `replace` calls of line 247. -/
def normalizeChar (char : Char) : Char :=
  if char = '×' then '*' else if char = '÷' then '/'
  else if char = '−' then '-' else char

/-- The argument passed to `parse` on line 247. -/
def normalize (expression : List Char) : List Char :=
  expression.map normalizeChar

/-- The body of the `switch` for a string token `part` (lines 255-304), given
the array `processed` and the token `parts[i + 1]` if there is one.  The result
is the new `processed` and whether `i` was advanced past the next token.
Every element of `processed` is a number, so the test on line 263 is
`processed.length > 0`. -/
def switchCase (part : Char) (processed : List JSNum) (next : Option Token) :
    Except CalcError (List JSNum × Bool) :=
  if part = '+' then .ok (processed, false)
  else if part = '-' then
    match next with
    | some (Token.num nextPart) =>
        if processed.length > 0 then .ok (processed ++ [JSNum.neg nextPart], true)
        else .ok (processed ++ [nextPart], true)
    | _ => .error CalcError.expectedNumberAfterMinus
  else if part = '*' then
    match processed.getLast?, next with
    | some leftValue, some (Token.num rightValue) =>
        .ok (processed.dropLast ++ [JSNum.mul leftValue rightValue], true)
    | _, _ => .error (CalcError.expectedNumbersAround '*')
  else if part = '/' then
    match processed.getLast?, next with
    | some leftValue, some (Token.num rightValue) =>
        .ok (processed.dropLast ++ [JSNum.div leftValue rightValue], true)
    | _, _ => .error (CalcError.expectedNumbersAround '/')
  else .error CalcError.unexpectedToken

/-- The `for` loop of `evaluateExpression` (lines 251-306) over the remaining
`parts`, with the array `processed` built so far. -/
def evalLoop : List Token → List JSNum → Except CalcError (List JSNum)
  | [], processed => .ok processed
  | Token.num value :: rest, processed => evalLoop rest (processed ++ [value])
  | [Token.op part], processed =>
      match switchCase part processed none with
      | .ok (processed', _) => .ok processed'
      | .error e => .error e
  | Token.op part :: next :: rest, processed =>
      match switchCase part processed (some next) with
      | .ok (processed', true) => evalLoop rest processed'
      | .ok (processed', false) => evalLoop (next :: rest) processed'
      | .error e => .error e

/-- The final `processed.reduce((a, c) => a + c, 0)` (line 309). -/
def sumProcessed (processed : List JSNum) : JSNum :=
  processed.foldl JSNum.add (JSNum.fin 0)

/-- The evaluator part of `evaluateExpression` (lines 249-309) on an array of
tokens. -/
def evaluateTokens (parts : List Token) : Except CalcError JSNum :=
  match evalLoop parts [] with
  | .ok processed => .ok (sumProcessed processed)
  | .error e => .error e

/-- The function `evaluateExpression` (lines 245-310). -/
def evaluateExpression (expression : List Char) : Except CalcError JSNum :=
  match parse (normalize expression) with
  | .ok parts => evaluateTokens parts
  | .error e => .error e

deriving instance DecidableEq for Except

/-! ## Vocabulary of the properties -/

/-- The operators whose case in `evaluateExpression` reads the next token. -/
def needsOperand (char : Char) : Bool :=
  char = '-' || char = '*' || char = '/'

/-- The token after an operator is not a number: there is none, or it is an
operator. -/
def noNumberNext : List Token → Bool
  | Token.num _ :: _ => false
  | _ => true

/-! ## Well-formed expressions and their arithmetic value

The grammar of the well-formed expression strings and the value standard
infix arithmetic gives them.  These definitions follow the specification, not
the code: they are what `evaluateExpression` is compared with. -/

/-- The character of a decimal digit. -/
def digitChar (d : Fin 10) : Char :=
  Char.ofNat ('0'.toNat + d.val)

/-- A decimal numeral: an optional `-` sign, the digits before the point, and
the digits after the point when a point is written. -/
structure Numeral where
  negative : Bool
  intDigits : List (Fin 10)
  fracDigits : Option (List (Fin 10))
  deriving DecidableEq

/-- Positional value of a run of digits, most significant first. -/
def natOfDigits : List (Fin 10) → ℕ
  | [] => 0
  | d :: ds => d.val * 10 ^ ds.length + natOfDigits ds

namespace Numeral

/-- A numeral has a digit before the point or a digit after it. -/
def wellFormed (n : Numeral) : Bool :=
  !n.intDigits.isEmpty ||
    (match n.fracDigits with
     | some f => !f.isEmpty
     | none => false)

/-- The text of the numeral without its sign. -/
def body (n : Numeral) : List Char :=
  n.intDigits.map digitChar ++
    (match n.fracDigits with
     | some f => '.' :: f.map digitChar
     | none => [])

/-- The text of the numeral. -/
def text (n : Numeral) : List Char :=
  (if n.negative then ['-'] else []) ++ n.body

/-- The absolute value the numeral denotes. -/
def magnitude (n : Numeral) : ℚ :=
  (natOfDigits n.intDigits : ℚ) +
    (match n.fracDigits with
     | some f => (natOfDigits f : ℚ) / (10 : ℚ) ^ f.length
     | none => 0)

/-- The rational number the numeral denotes. -/
def value (n : Numeral) : ℚ :=
  if n.negative then -n.magnitude else n.magnitude

end Numeral

/-- The four binary operators. -/
inductive BinOp where
  | add
  | sub
  | mul
  | div
  deriving DecidableEq

namespace BinOp

/-- The character of the operator. -/
def char : BinOp → Char
  | add => '+'
  | sub => '-'
  | mul => '*'
  | div => '/'

/-- The operators of the tighter precedence level. -/
def isMultiplicative : BinOp → Bool
  | mul => true
  | div => true
  | _ => false

/-- The operator on rationals. -/
def apply : BinOp → ℚ → ℚ → ℚ
  | add, a, b => a + b
  | sub, a, b => a - b
  | mul, a, b => a * b
  | div, a, b => a / b

end BinOp

/-- The text of the operator-numeral pairs that follow the first numeral. -/
def pairsText : List (BinOp × Numeral) → List Char
  | [] => []
  | (o, n) :: rest => o.char :: (n.text ++ pairsText rest)

/-- The text of a well-formed expression: a numeral followed by
operator-numeral pairs. -/
def expressionText (first : Numeral) (rest : List (BinOp × Numeral)) : List Char :=
  first.text ++ pairsText rest

/-- Every numeral of the expression is well formed. -/
def wellFormedExpression (first : Numeral) (rest : List (BinOp × Numeral)) : Bool :=
  first.wellFormed && rest.all (fun p => p.2.wellFormed)

/-- No numeral that follows a `/` denotes zero. -/
def noZeroDivisor (rest : List (BinOp × ℚ)) : Bool :=
  rest.all (fun p => decide (p.1 = BinOp.div → p.2 ≠ 0))

/-- The values of the operator-numeral pairs. -/
def pairValues (rest : List (BinOp × Numeral)) : List (BinOp × ℚ) :=
  rest.map (fun p => (p.1, p.2.value))

/-- A maximal run of factors joined by `*` and `/`: its first factor and the
operator-factor pairs after it. -/
structure Term where
  first : ℚ
  factors : List (BinOp × ℚ)

/-- Value of a term: its factors applied from left to right. -/
def Term.value (t : Term) : ℚ :=
  t.factors.foldl (fun acc f => f.1.apply acc f.2) t.first

/-- Grouping by precedence: the flat sequence is cut at every `+` and `-`,
which gives the first term and the following operator-term pairs. -/
def groupTerms (first : ℚ) : List (BinOp × ℚ) → Term × List (BinOp × Term)
  | [] => ({ first := first, factors := [] }, [])
  | (o, v) :: rest =>
      let g := groupTerms v rest
      if o.isMultiplicative then
        ({ first := first, factors := (o, v) :: g.1.factors }, g.2)
      else
        ({ first := first, factors := [] }, (o, g.1) :: g.2)

/-- Value of a flat infix expression under standard arithmetic: `*` and `/`
bind tighter than `+` and `-`, and each level is applied from left to right. -/
def infixValue (first : ℚ) (rest : List (BinOp × ℚ)) : ℚ :=
  let g := groupTerms first rest
  g.2.foldl (fun acc s => s.1.apply acc s.2.value) g.1.value

/-! ## Vocabulary of the correctness proof -/

/-- The tokens of operator-value pairs. -/
def pairTokens : List (BinOp × ℚ) → List Token
  | [] => []
  | (o, v) :: rest => Token.op o.char :: Token.num (JSNum.fin v) :: pairTokens rest

/-- The signed term values the loop leaves in `processed`, given the value
`cur` of the entry being built and the remaining operator-value pairs. -/
def termList (cur : ℚ) : List (BinOp × ℚ) → List ℚ
  | [] => [cur]
  | (BinOp.add, v) :: rest => cur :: termList v rest
  | (BinOp.sub, v) :: rest => cur :: termList (-v) rest
  | (BinOp.mul, v) :: rest => termList (cur * v) rest
  | (BinOp.div, v) :: rest => termList (cur / v) rest

/-- A character of a well-formed expression: a digit, `.` or an operator. -/
def isPlain (c : Char) : Bool :=
  isDigit c || decide (c = '.') || isOperatorChar c

/-! ## The calculator state and its handlers -/

/-- The state the click handlers read and write: the text of the two display
elements and the two module variables. -/
structure Calculator where
  /-- `numberElem.textContent`. -/
  number : List Char
  /-- `calculationElem.textContent`. -/
  calculation : List Char
  isAnswered : Bool
  /-- `null`, or the display text stored by `displayCalculation`. -/
  selectedNumber : Option (List Char)
  deriving DecidableEq

/-- The cleared state: display `0`, empty calculation, no answer shown. -/
def cleared : Calculator :=
  { number := ['0'], calculation := [], isAnswered := false, selectedNumber := none }

/-- The function `clearAll` (lines 93-97). -/
def clearAll (st : Calculator) : Calculator :=
  { st with calculation := [], selectedNumber := none, number := ['0'] }

/-- The function `clearElement` (lines 102-105). -/
def clearElement (st : Calculator) : Calculator :=
  { st with
    calculation := if st.isAnswered then [] else st.calculation
    number := ['0'] }

/-- The function `handleBackspace` (lines 110-113); `slice(0, -1)` drops the
last character. -/
def handleBackspace (st : Calculator) : Calculator :=
  { st with number := if st.number.length > 1 then st.number.dropLast else ['0'] }

/-- The test `currentIndex === selectedNumber` (line 130): `currentIndex` is a
number and `selectedNumber` is `null` or a string, so strict equality never
holds. -/
def indexIsSelected (_currentIndex : Fin 10) (_selectedNumber : Option (List Char)) : Bool :=
  false

/-- Truthiness of `selectedNumber`: a non-empty string. -/
def isTruthy : Option (List Char) → Bool
  | some text => !text.isEmpty
  | none => false

/-- The function `handleNumber` (lines 120-141) for the button of index
`currentIndex`; assigning the index to `textContent` writes its one digit. -/
def handleNumber (currentIndex : Fin 10) (st : Calculator) : Calculator :=
  if st.number = ['0'] ∨ st.isAnswered = true then
    { st with
      isAnswered := false
      calculation := if st.isAnswered then [] else st.calculation
      number := [digitChar currentIndex] }
  else if st.calculation ≠ [] ∧ indexIsSelected currentIndex st.selectedNumber = true then
    { st with selectedNumber := none }
  else if isTruthy st.selectedNumber = true then
    { st with number := [digitChar currentIndex], selectedNumber := none }
  else
    { st with number := st.number ++ [digitChar currentIndex] }

/-- The function `handlePoint` (lines 146-150). -/
def handlePoint (st : Calculator) : Calculator :=
  if ¬ ('.' ∈ st.number) then { st with number := st.number ++ ['.'] } else st

/-- The function `toggleNegation` (lines 155-159); `replace('-', '')` removes
the first `-`. -/
def toggleNegation (st : Calculator) : Calculator :=
  { st with
    number :=
      if ¬ ('-' ∈ st.number) ∧ st.number ≠ ['0'] then '-' :: st.number
      else st.number.erase '-' }

/-- A click on one of the six buttons handled without `handleOperation`. -/
inductive Click where
  | backspace
  | number (currentIndex : Fin 10)
  | point
  | negation
  | clearElement
  | clearAll
  deriving DecidableEq

/-- The handler `handleClick` dispatches a click to. -/
def Click.handle : Click → Calculator → Calculator
  | .backspace => handleBackspace
  | .number currentIndex => handleNumber currentIndex
  | .point => handlePoint
  | .negation => toggleNegation
  | .clearElement => JsCalculator.clearElement
  | .clearAll => JsCalculator.clearAll

/-- The state after a sequence of clicks. -/
def runClicks (clicks : List Click) (st : Calculator) : Calculator :=
  clicks.foldl (fun s click => click.handle s) st

/-! ## Vocabulary of the token invariants -/

/-- Every `Operator(-)` of the token sequence comes right after a number
token; `afterNumber` says whether the sequence itself comes right after a
number. -/
def minusFollowsNumber (afterNumber : Bool) : List Token → Bool
  | [] => true
  | Token.num _ :: rest => minusFollowsNumber true rest
  | Token.op c :: rest => (decide (c ≠ '-') || afterNumber) && minusFollowsNumber false rest

/-- Every string token of the sequence is one of the four operator
characters. -/
def opsAreOperators (tokens : List Token) : Bool :=
  tokens.all (fun t =>
    match t with
    | Token.op c => isOperatorChar c
    | Token.num _ => true)

/-- The loop of `evaluateExpression`, followed only to record whether some
iteration meets the token `'-'` while `processed` is empty (the condition under
which line 267 is the branch taken). -/
def meetsMinusOnEmpty : List Token → List JSNum → Bool
  | [], _ => false
  | Token.num value :: rest, processed => meetsMinusOnEmpty rest (processed ++ [value])
  | [Token.op part], processed => decide (part = '-') && processed.isEmpty
  | Token.op part :: next :: rest, processed =>
      (decide (part = '-') && processed.isEmpty) ||
        (match switchCase part processed (some next) with
         | .ok (processed', true) => meetsMinusOnEmpty rest processed'
         | .ok (processed', false) => meetsMinusOnEmpty (next :: rest) processed'
         | .error _ => false)

/-- The two facts `parse` maintains about `tokens`. -/
def tokensInvariant (tokens : List Token) : Prop :=
  minusFollowsNumber false tokens = true ∧ opsAreOperators tokens = true

/-! ## Double precision

The numbers of the source are IEEE 754 binary64 values: `parseFloat` and every
arithmetic operator return the representable value nearest to the exact
result.  This section gives that reading of `parse` and `evaluateExpression`;
as above, the two zeros are identified. -/

/-- The integer nearest to `N / D`, the even one when two are equally near. -/
def roundNearestEven (N D : ℕ) : ℕ :=
  let f := N / D
  let r := N % D
  if 2 * r < D then f
  else if D < 2 * r then f + 1
  else if f % 2 = 0 then f else f + 1

/-- Halving `n` until it is below 2, at most `fuel` times: the number of
halvings. -/
def halvings : ℕ → ℕ → ℕ
  | 0, _ => 0
  | fuel + 1, n => if n < 2 then 0 else halvings fuel (n / 2) + 1

/-- The position of the leading binary digit of `n`: the `k` with
`2 ^ k ≤ n < 2 ^ (k + 1)` for positive `n`. -/
def leadingBit (n : ℕ) : ℕ :=
  halvings n n

/-- The binary exponent of `p / d` for positive `p` and `d`: the `e` with
`2 ^ e ≤ p / d < 2 ^ (e + 1)`. -/
def binaryExponent (p d : ℕ) : ℤ :=
  let e0 : ℤ := (leadingBit p : ℤ) - (leadingBit d : ℤ)
  let below : Bool :=
    if 0 ≤ e0 then decide (p < d * 2 ^ e0.toNat) else decide (p * 2 ^ (-e0).toNat < d)
  if below then e0 - 1 else e0

/-- The integer nearest to `p / d / 2 ^ u`, ties to even. -/
def scaleRound (p d : ℕ) (u : ℤ) : ℕ :=
  if 0 ≤ u then roundNearestEven p (d * 2 ^ u.toNat)
  else roundNearestEven (p * 2 ^ (-u).toNat) d

/-- The rational `M * 2 ^ u`. -/
def scaleBack (M : ℕ) (u : ℤ) : ℚ :=
  if 0 ≤ u then ((M * 2 ^ u.toNat : ℕ) : ℚ)
  else (M : ℚ) / ((2 ^ (-u).toNat : ℕ) : ℚ)

/-- The binary64 value nearest to the rational `q`, ties to the even
mantissa: 53 significant bits, the last of weight at least `2 ^ (-1074)`, and
`Infinity` of the sign of `q` when the rounded magnitude reaches `2 ^ 1024`. -/
def roundToDouble (q : ℚ) : JSNum :=
  if q = 0 then JSNum.fin 0
  else
    let p := q.num.natAbs
    let d := q.den
    let u : ℤ := max (binaryExponent p d - 52) (-1074)
    let M := scaleRound p d u
    if 0 ≤ u ∧ 2 ^ 1024 ≤ M * 2 ^ u.toNat then JSNum.infOfSign (decide (q < 0))
    else JSNum.fin (if q < 0 then -scaleBack M u else scaleBack M u)

/-- Rounding of an exact result to a double; `Infinity`, `-Infinity` and `NaN`
are doubles already. -/
def JSNum.toDouble : JSNum → JSNum
  | JSNum.fin q => roundToDouble q
  | x => x

namespace Double

/-- The built-in `parseFloat`: the decimal value of the longest numeric prefix
of `text`, rounded to the nearest double. -/
def parseFloat (text : List Char) : JSNum :=
  (JsCalculator.parseFloat text).toDouble

/-- The statement `if (currentNumber) tokens.push(parseFloat(currentNumber))`. -/
def flush (tokens : List Token) (currentNumber : List Char) : List Token :=
  if currentNumber ≠ [] then tokens ++ [Token.num (Double.parseFloat currentNumber)]
  else tokens

/-- One iteration of the `for` loop of `parse` (lines 203-227). -/
def parseStep (st : ParseState) (char : Char) : Except CalcError ParseState :=
  if isDigit char || char = '.' then
    .ok { st with currentNumber := st.currentNumber ++ [char] }
  else if isOperatorChar char then
    let tokens := Double.flush st.tokens st.currentNumber
    if char = '-' ∧ (tokens.length = 0 ∨ lastIsOperator tokens) then
      .ok { tokens := tokens, currentNumber := ['-'] }
    else
      .ok { tokens := tokens ++ [Token.op char], currentNumber := [] }
  else if isWhitespace char then
    .ok st
  else
    .error (CalcError.invalidCharacter char)

/-- The `for` loop of `parse`, from a given state over the remaining
characters. -/
def parseLoop : List Char → ParseState → Except CalcError ParseState
  | [], st => .ok st
  | char :: rest, st =>
      match Double.parseStep st char with
      | .ok st' => parseLoop rest st'
      | .error e => .error e

/-- The function `parse` (lines 198-236). -/
def parse (expression : List Char) : Except CalcError (List Token) :=
  match Double.parseLoop expression { tokens := [], currentNumber := [] } with
  | .ok st => .ok (Double.flush st.tokens st.currentNumber)
  | .error e => .error e

/-- The body of the `switch` for a string token `part` (lines 255-304); the
product and the quotient are rounded, the negation is exact. -/
def switchCase (part : Char) (processed : List JSNum) (next : Option Token) :
    Except CalcError (List JSNum × Bool) :=
  if part = '+' then .ok (processed, false)
  else if part = '-' then
    match next with
    | some (Token.num nextPart) =>
        if processed.length > 0 then .ok (processed ++ [JSNum.neg nextPart], true)
        else .ok (processed ++ [nextPart], true)
    | _ => .error CalcError.expectedNumberAfterMinus
  else if part = '*' then
    match processed.getLast?, next with
    | some leftValue, some (Token.num rightValue) =>
        .ok (processed.dropLast ++ [(JSNum.mul leftValue rightValue).toDouble], true)
    | _, _ => .error (CalcError.expectedNumbersAround '*')
  else if part = '/' then
    match processed.getLast?, next with
    | some leftValue, some (Token.num rightValue) =>
        .ok (processed.dropLast ++ [(JSNum.div leftValue rightValue).toDouble], true)
    | _, _ => .error (CalcError.expectedNumbersAround '/')
  else .error CalcError.unexpectedToken

/-- The `for` loop of `evaluateExpression` (lines 251-306) over the remaining
`parts`, with the array `processed` built so far. -/
def evalLoop : List Token → List JSNum → Except CalcError (List JSNum)
  | [], processed => .ok processed
  | Token.num value :: rest, processed => evalLoop rest (processed ++ [value])
  | [Token.op part], processed =>
      match Double.switchCase part processed none with
      | .ok (processed', _) => .ok processed'
      | .error e => .error e
  | Token.op part :: next :: rest, processed =>
      match Double.switchCase part processed (some next) with
      | .ok (processed', true) => evalLoop rest processed'
      | .ok (processed', false) => evalLoop (next :: rest) processed'
      | .error e => .error e

/-- The final `processed.reduce((a, c) => a + c, 0)` (line 309), each sum
rounded. -/
def sumProcessed (processed : List JSNum) : JSNum :=
  processed.foldl (fun accumulator currentValue =>
    (JSNum.add accumulator currentValue).toDouble) (JSNum.fin 0)

/-- The evaluator part of `evaluateExpression` (lines 249-309) on an array of
tokens. -/
def evaluateTokens (parts : List Token) : Except CalcError JSNum :=
  match Double.evalLoop parts [] with
  | .ok processed => .ok (Double.sumProcessed processed)
  | .error e => .error e

/-- The function `evaluateExpression` (lines 245-310). -/
def evaluateExpression (expression : List Char) : Except CalcError JSNum :=
  match Double.parse (normalize expression) with
  | .ok parts => Double.evaluateTokens parts
  | .error e => .error e

end Double

/-! ## The evaluator loop: operators whose operand is missing -/

theorem switchCase_error_isMalformed {part : Char} {processed : List JSNum}
    {next : Option Token} {e : CalcError}
    (h : switchCase part processed next = .error e) : e.isMalformed = true := by
  unfold switchCase at h
  repeat' split at h
  all_goals first
    | (cases h; rfl)
    | cases h

theorem switchCase_consumed_isNum {part : Char} {processed processed' : List JSNum}
    {next : Option Token}
    (h : switchCase part processed next = .ok (processed', true)) :
    ∃ v, next = some (Token.num v) := by
  unfold switchCase at h
  repeat' split at h
  all_goals first
    | exact ⟨_, rfl⟩
    | cases h

theorem switchCase_needsOperand_error {part : Char} (hc : needsOperand part = true)
    (processed : List JSNum) (next : Option Token)
    (hnext : ∀ v, next ≠ some (Token.num v)) :
    ∃ e, switchCase part processed next = .error e := by
  simp only [needsOperand, Bool.or_eq_true, decide_eq_true_eq] at hc
  cases hsw : switchCase part processed next with
  | error e => exact ⟨e, rfl⟩
  | ok r =>
    obtain ⟨p', b⟩ := r
    cases b with
    | true => obtain ⟨v, hv⟩ := switchCase_consumed_isNum hsw; exact absurd hv (hnext v)
    | false =>
      exfalso
      unfold switchCase at hsw
      repeat' split at hsw
      all_goals first
        | (cases hsw; done)
        | (subst_vars; exact absurd hc (by decide))

theorem evalLoop_num (v : JSNum) (rest : List Token) (p : List JSNum) :
    evalLoop (Token.num v :: rest) p = evalLoop rest (p ++ [v]) := by
  rw [evalLoop]

/-- An operator among `-`, `*`, `/` that is not followed by a number makes the
loop throw, wherever it stands in `parts`. -/
theorem evalLoop_missing_operand (c : Char) (hc : needsOperand c = true)
    (rest : List Token) (hrest : noNumberNext rest = true) :
    ∀ (n : ℕ) (pre : List Token) (processed : List JSNum), pre.length ≤ n →
      ∃ e, evalLoop (pre ++ Token.op c :: rest) processed = .error e ∧
        e.isMalformed = true := by
  intro n
  induction n with
  | zero =>
    intro pre processed hlen
    have hpre : pre = [] := List.eq_nil_of_length_eq_zero (Nat.le_zero.mp hlen)
    subst hpre
    cases rest with
    | nil =>
      obtain ⟨e, he⟩ := switchCase_needsOperand_error hc processed
        none (by intro v h; cases h)
      exact ⟨e, by simp [evalLoop, he], switchCase_error_isMalformed he⟩
    | cons t ts =>
      cases t with
      | num v => simp [noNumberNext] at hrest
      | op d =>
        obtain ⟨e, he⟩ := switchCase_needsOperand_error hc processed
          (some (Token.op d)) (by intro v h; cases h)
        exact ⟨e, by simp [evalLoop, he], switchCase_error_isMalformed he⟩
  | succ n ih =>
    intro pre processed hlen
    cases pre with
    | nil => exact ih [] processed (Nat.zero_le _)
    | cons t pre' =>
      have hlen' : pre'.length ≤ n := by simpa using hlen
      cases t with
      | num v =>
        rw [List.cons_append, evalLoop_num]
        exact ih pre' _ hlen'
      | op d =>
        cases hrest2 : pre' ++ Token.op c :: rest with
        | nil => simp at hrest2
        | cons next rest2 =>
          rw [List.cons_append, hrest2, evalLoop]
          cases hsw : switchCase d processed (some next) with
          | error e => exact ⟨e, rfl, switchCase_error_isMalformed hsw⟩
          | ok r =>
            obtain ⟨p', b⟩ := r
            cases b with
            | false =>
              simp only
              rw [← hrest2]
              exact ih pre' p' hlen'
            | true =>
              simp only
              obtain ⟨v, hv⟩ := switchCase_consumed_isNum hsw
              cases pre' with
              | nil =>
                simp at hrest2
                rw [← hrest2.1] at hv
                simp at hv
              | cons t' pre'' =>
                simp at hrest2
                rw [← hrest2.2]
                exact ih pre'' p' (by simp at hlen'; omega)

theorem evalLoop_error_isMalformed (n : ℕ) :
    ∀ (parts : List Token) (processed : List JSNum) (e : CalcError),
      parts.length ≤ n → evalLoop parts processed = .error e →
      e.isMalformed = true := by
  induction n with
  | zero =>
    intro parts processed e hlen h
    have hnil : parts = [] := List.eq_nil_of_length_eq_zero (Nat.le_zero.mp hlen)
    subst hnil
    simp [evalLoop] at h
  | succ n ih =>
    intro parts processed e hlen h
    match parts, hlen, h with
    | [], _, h => simp [evalLoop] at h
    | Token.num v :: rest, hlen, h =>
      rw [evalLoop] at h
      exact ih rest _ e (by simpa using hlen) h
    | [Token.op part], _, h =>
      rw [evalLoop] at h
      cases hsw : switchCase part processed none with
      | error e' =>
        rw [hsw] at h
        cases h
        exact switchCase_error_isMalformed hsw
      | ok r => rw [hsw] at h; cases h
    | Token.op part :: next :: rest, hlen, h =>
      rw [evalLoop] at h
      cases hsw : switchCase part processed (some next) with
      | error e' =>
        rw [hsw] at h
        cases h
        exact switchCase_error_isMalformed hsw
      | ok r =>
        obtain ⟨p', b⟩ := r
        rw [hsw] at h
        simp only [List.length_cons] at hlen
        cases b with
        | true => exact ih rest p' e (by omega) h
        | false => exact ih (next :: rest) p' e (by simp; omega) h

/-! ## The tokenizer: accepted and rejected characters -/

theorem parseStep_digit (st : ParseState) (c : Char)
    (h : (isDigit c || decide (c = '.')) = true) :
    parseStep st c = .ok { st with currentNumber := st.currentNumber ++ [c] } := by
  simp only [parseStep, h, if_true]

theorem parseStep_operator (st : ParseState) (c : Char)
    (h : (isDigit c || decide (c = '.')) = false) (ho : isOperatorChar c = true) :
    parseStep st c =
      if c = '-' ∧ ((flush st.tokens st.currentNumber).length = 0 ∨
          lastIsOperator (flush st.tokens st.currentNumber) = true) then
        .ok { tokens := flush st.tokens st.currentNumber, currentNumber := ['-'] }
      else
        .ok { tokens := flush st.tokens st.currentNumber ++ [Token.op c],
              currentNumber := [] } := by
  simp only [parseStep, h, ho, if_true, Bool.false_eq_true, if_false]

theorem parseStep_whitespace (st : ParseState) (c : Char)
    (h : (isDigit c || decide (c = '.')) = false) (ho : isOperatorChar c = false)
    (hw : isWhitespace c = true) : parseStep st c = .ok st := by
  simp only [parseStep, h, ho, hw, if_true, Bool.false_eq_true, if_false]

theorem parseStep_invalid (st : ParseState) (c : Char)
    (h : isAccepted c = false) :
    parseStep st c = .error (CalcError.invalidCharacter c) := by
  simp only [isAccepted, Bool.or_eq_false_iff] at h
  obtain ⟨⟨h1, h2⟩, h3⟩ := h
  have h12 : (isDigit c || decide (c = '.')) = false := by
    rw [Bool.or_eq_false_iff]; exact h1
  simp only [parseStep, h12, h2, h3, Bool.false_eq_true, if_false]

theorem parseStep_accepted (st : ParseState) (c : Char) (h : isAccepted c = true) :
    ∃ st', parseStep st c = .ok st' := by
  by_cases h1 : (isDigit c || decide (c = '.')) = true
  · exact ⟨_, parseStep_digit st c h1⟩
  · have h1f : (isDigit c || decide (c = '.')) = false := by simpa using h1
    by_cases h2 : isOperatorChar c = true
    · rw [parseStep_operator st c h1f h2]
      split_ifs
      · exact ⟨_, rfl⟩
      · exact ⟨_, rfl⟩
    · have h2f : isOperatorChar c = false := by simpa using h2
      have h3 : isWhitespace c = true := by
        simp only [isAccepted, h1f, h2f, Bool.false_or] at h
        exact h
      exact ⟨_, parseStep_whitespace st c h1f h2f h3⟩

theorem parseStep_error (st : ParseState) (c : Char) (e : CalcError)
    (h : parseStep st c = .error e) :
    e = CalcError.invalidCharacter c ∧ isAccepted c = false := by
  cases hacc : isAccepted c with
  | true =>
    obtain ⟨st', hst⟩ := parseStep_accepted st c hacc
    rw [hst] at h
    cases h
  | false =>
    rw [parseStep_invalid st c hacc] at h
    cases h
    exact ⟨rfl, rfl⟩

theorem parseLoop_error (s : List Char) (st : ParseState) (e : CalcError)
    (h : parseLoop s st = .error e) :
    ∃ c ∈ s, e = CalcError.invalidCharacter c ∧ isAccepted c = false := by
  induction s generalizing st with
  | nil => simp [parseLoop] at h
  | cons c rest ih =>
    rw [parseLoop] at h
    cases hstep : parseStep st c with
    | error e' =>
      rw [hstep] at h
      cases h
      obtain ⟨h1, h2⟩ := parseStep_error st c e hstep
      exact ⟨c, List.mem_cons_self _ _, h1, h2⟩
    | ok st' =>
      rw [hstep] at h
      obtain ⟨c', hc', h1, h2⟩ := ih st' h
      exact ⟨c', List.mem_cons_of_mem _ hc', h1, h2⟩

theorem parseLoop_ok_all_accepted (s : List Char) (st st' : ParseState)
    (h : parseLoop s st = .ok st') : s.all isAccepted = true := by
  induction s generalizing st with
  | nil => rfl
  | cons c rest ih =>
    rw [parseLoop] at h
    cases hstep : parseStep st c with
    | error e' => rw [hstep] at h; cases h
    | ok st'' =>
      rw [hstep] at h
      have hc : isAccepted c = true := by
        cases hacc : isAccepted c with
        | true => rfl
        | false =>
          rw [parseStep_invalid st c hacc] at hstep
          cases hstep
      simp [List.all_cons, hc, ih st'' h]

theorem parseLoop_all_accepted (s : List Char) (st : ParseState)
    (h : s.all isAccepted = true) : ∃ st', parseLoop s st = .ok st' := by
  cases hloop : parseLoop s st with
  | ok st' => exact ⟨st', rfl⟩
  | error e =>
    obtain ⟨c, hc, -, hacc⟩ := parseLoop_error s st e hloop
    rw [List.all_eq_true] at h
    rw [h c hc] at hacc
    cases hacc

theorem parse_error (s : List Char) (e : CalcError) (h : parse s = .error e) :
    ∃ c ∈ s, e = CalcError.invalidCharacter c ∧ isAccepted c = false := by
  unfold parse at h
  cases hloop : parseLoop s { tokens := [], currentNumber := [] } with
  | ok st => rw [hloop] at h; cases h
  | error e' =>
    rw [hloop] at h
    cases h
    exact parseLoop_error s _ e hloop

theorem parse_ok_iff (s : List Char) :
    (∃ tokens, parse s = .ok tokens) ↔ s.all isAccepted = true := by
  constructor
  · rintro ⟨tokens, h⟩
    unfold parse at h
    cases hloop : parseLoop s { tokens := [], currentNumber := [] } with
    | ok st => exact parseLoop_ok_all_accepted s _ st hloop
    | error e' => rw [hloop] at h; cases h
  · intro h
    obtain ⟨st, hst⟩ := parseLoop_all_accepted s { tokens := [], currentNumber := [] } h
    exact ⟨flush st.tokens st.currentNumber, by simp [parse, hst]⟩

theorem evaluateTokens_error_isMalformed (parts : List Token) (e : CalcError)
    (h : evaluateTokens parts = .error e) : e.isMalformed = true := by
  unfold evaluateTokens at h
  cases hloop : evalLoop parts [] with
  | ok p => rw [hloop] at h; cases h
  | error e' =>
    rw [hloop] at h
    cases h
    exact evalLoop_error_isMalformed parts.length parts [] e le_rfl hloop

theorem evaluateExpression_invalidCharacter (expression : List Char) (c : Char)
    (h : evaluateExpression expression = .error (CalcError.invalidCharacter c)) :
    c ∈ normalize expression ∧ isAccepted c = false := by
  unfold evaluateExpression at h
  cases hp : parse (normalize expression) with
  | ok parts =>
    rw [hp] at h
    have := evaluateTokens_error_isMalformed parts _ h
    simp [CalcError.isMalformed] at this
  | error e' =>
    rw [hp] at h
    cases h
    obtain ⟨c', hc', h1, h2⟩ := parse_error _ _ hp
    cases h1
    exact ⟨hc', h2⟩

theorem normalizeChar_idem (c : Char) : normalizeChar (normalizeChar c) = normalizeChar c := by
  unfold normalizeChar
  split_ifs <;> first | rfl | (exfalso; revert ‹_ = _›; decide)

theorem normalize_idem (s : List Char) : normalize (normalize s) = normalize s := by
  simp [normalize, Function.comp_def, normalizeChar_idem]

theorem normalizeChar_ne_glyph (c : Char) :
    normalizeChar c ≠ '×' ∧ normalizeChar c ≠ '÷' ∧ normalizeChar c ≠ '−' := by
  unfold normalizeChar
  split_ifs with h1 h2 h3
  · decide
  · decide
  · decide
  · exact ⟨h1, h2, h3⟩

/-! ## The tokenizer: concatenation and white space -/

theorem parseLoop_append (a b : List Char) (st : ParseState) :
    parseLoop (a ++ b) st =
      match parseLoop a st with
      | .ok st' => parseLoop b st'
      | .error e => .error e := by
  induction a generalizing st with
  | nil => simp [parseLoop]
  | cons c rest ih =>
    rw [List.cons_append, parseLoop, parseLoop]
    cases parseStep st c with
    | ok st' => exact ih st'
    | error e => rfl

theorem isWhitespace_not_digit_dot (c : Char) (h : isWhitespace c = true) :
    (isDigit c || decide (c = '.')) = false := by
  rw [Bool.or_eq_false_iff]
  constructor
  · simp only [isWhitespace, Bool.or_eq_true, decide_eq_true_eq] at h
    simp only [isDigit, decide_eq_false_iff_not, not_and, not_le]
    have h0 : '0'.toNat = 48 := rfl
    have h9 : '9'.toNat = 57 := rfl
    omega
  · rw [decide_eq_false_iff_not]
    rintro rfl
    revert h
    decide

theorem isWhitespace_not_operator (c : Char) (h : isWhitespace c = true) :
    isOperatorChar c = false := by
  cases ho : isOperatorChar c with
  | false => rfl
  | true =>
    simp only [isOperatorChar, Bool.or_eq_true, decide_eq_true_eq] at ho
    rcases ho with ((rfl | rfl) | rfl) | rfl <;> revert h <;> decide

theorem parseLoop_whitespace (ws : List Char) (st : ParseState)
    (h : ws.all isWhitespace = true) : parseLoop ws st = .ok st := by
  induction ws with
  | nil => rfl
  | cons w rest ih =>
    simp only [List.all_cons, Bool.and_eq_true] at h
    rw [parseLoop, parseStep_whitespace st w (isWhitespace_not_digit_dot w h.1)
      (isWhitespace_not_operator w h.1) h.1]
    exact ih h.2

theorem normalizeChar_whitespace (c : Char) (h : isWhitespace c = true) :
    normalizeChar c = c := by
  unfold normalizeChar
  split_ifs with h1 h2 h3
  · subst h1; revert h; decide
  · subst h2; revert h; decide
  · subst h3; revert h; decide
  · rfl

theorem normalize_whitespace (ws : List Char) (h : ws.all isWhitespace = true) :
    normalize ws = ws := by
  induction ws with
  | nil => rfl
  | cons w rest ih =>
    simp only [List.all_cons, Bool.and_eq_true] at h
    simp only [normalize, List.map_cons] at ih ⊢
    rw [normalizeChar_whitespace w h.1, ih h.2]

theorem normalizeChar_digit_dot (c : Char) (h : isDigit c = true ∨ c = '.') :
    normalizeChar c = c := by
  unfold normalizeChar
  split_ifs with h1 h2 h3
  · subst h1; revert h; decide
  · subst h2; revert h; decide
  · subst h3; revert h; decide
  · rfl

theorem lastIsOperator_append_num (tokens : List Token) (v : JSNum) :
    lastIsOperator (tokens ++ [Token.num v]) = false := by
  simp [lastIsOperator]

theorem lastIsOperator_append_op (tokens : List Token) (c : Char)
    (h : isOperatorChar c = true) :
    lastIsOperator (tokens ++ [Token.op c]) = true := by
  simp [lastIsOperator, h]

theorem flush_nil (tokens : List Token) : flush tokens [] = tokens := by
  simp [flush]

theorem flush_of_ne_nil (tokens : List Token) (text : List Char) (h : text ≠ []) :
    flush tokens text = tokens ++ [Token.num (parseFloat text)] := by
  simp [flush, h]

/-- An operator character that is pushed as a token: anything but `-`, or a
`-` that arrives while a numeral is pending. -/
theorem parseStep_binary (st : ParseState) (c : Char) (ho : isOperatorChar c = true)
    (h : c ≠ '-' ∨ st.currentNumber ≠ []) :
    parseStep st c =
      .ok { tokens := flush st.tokens st.currentNumber ++ [Token.op c],
            currentNumber := [] } := by
  have hd : (isDigit c || decide (c = '.')) = false := by
    simp only [isOperatorChar, Bool.or_eq_true, decide_eq_true_eq] at ho
    rcases ho with ((rfl | rfl) | rfl) | rfl <;> decide
  rw [parseStep_operator st c hd ho, if_neg]
  rintro ⟨rfl, hcond⟩
  rcases h with h | h
  · exact h rfl
  · rw [flush_of_ne_nil _ _ h, lastIsOperator_append_num] at hcond
    simp at hcond

theorem parse_trailing_operator (s ws : List Char) (c : Char) (st : ParseState)
    (hs : parseLoop s { tokens := [], currentNumber := [] } = .ok st)
    (ho : isOperatorChar c = true) (h : c ≠ '-' ∨ st.currentNumber ≠ [])
    (hws : ws.all isWhitespace = true) :
    parse (s ++ c :: ws) = .ok (flush st.tokens st.currentNumber ++ [Token.op c]) := by
  unfold parse
  rw [parseLoop_append, hs]
  simp only
  rw [parseLoop, parseStep_binary st c ho h]
  simp only
  rw [parseLoop_whitespace ws _ hws]
  simp only [flush_nil]

/-- The evaluation of a string whose text for `parse` ends, up to white
space, with an operator among `-`, `*`, `/` that is pushed as a token. -/
theorem evaluate_trailing_operator (s ws : List Char) (c : Char)
    (ho : isOperatorChar c = true) (hn : needsOperand c = true)
    (h : c ≠ '-' ∨ ∀ st, parseLoop s { tokens := [], currentNumber := [] } = .ok st →
      st.currentNumber ≠ [])
    (hws : ws.all isWhitespace = true) :
    ∃ err, (match parse (s ++ c :: ws) with
        | .ok parts => evaluateTokens parts
        | .error e => .error e) = .error err ∧
      err.isMalformed = s.all isAccepted := by
  cases hs : parseLoop s { tokens := [], currentNumber := [] } with
  | error e =>
    have hp : parse (s ++ c :: ws) = .error e := by
      unfold parse
      rw [parseLoop_append, hs]
    obtain ⟨x, hx, hex, hacc⟩ := parseLoop_error s _ e hs
    refine ⟨e, by rw [hp], ?_⟩
    have hall : s.all isAccepted = false := by
      cases hb : s.all isAccepted with
      | false => rfl
      | true =>
        rw [List.all_eq_true] at hb
        rw [hb x hx] at hacc
        cases hacc
    rw [hall, hex]
    rfl
  | ok st =>
    have h' : c ≠ '-' ∨ st.currentNumber ≠ [] := h.imp id (fun hst => hst st hs)
    rw [parse_trailing_operator s ws c st hs ho h' hws]
    simp only
    obtain ⟨e, he, hm⟩ := evalLoop_missing_operand c hn [] rfl _
      (flush st.tokens st.currentNumber) [] le_rfl
    refine ⟨e, by simp [evaluateTokens, he], ?_⟩
    rw [hm, parseLoop_ok_all_accepted s _ st hs]

theorem pending_numeral_after_digit (s' ws' : List Char) (d : Char)
    (hd : isDigit d = true ∨ d = '.') (hws : ws'.all isWhitespace = true)
    (st : ParseState)
    (h : parseLoop (normalize (s' ++ d :: ws'))
      { tokens := [], currentNumber := [] } = .ok st) :
    st.currentNumber ≠ [] := by
  have hnorm : normalize (s' ++ d :: ws') = normalize s' ++ d :: ws' := by
    have h1 := normalize_whitespace ws' hws
    simp only [normalize] at h1
    simp [normalize, normalizeChar_digit_dot d hd, h1]
  rw [hnorm, parseLoop_append] at h
  cases h1 : parseLoop (normalize s') { tokens := [], currentNumber := [] } with
  | error e => rw [h1] at h; cases h
  | ok st1 =>
    rw [h1] at h
    simp only at h
    have hdd : (isDigit d || decide (d = '.')) = true := by
      rcases hd with hd | hd <;> simp [hd]
    rw [parseLoop, parseStep_digit st1 d hdd] at h
    simp only at h
    rw [parseLoop_whitespace ws' _ hws] at h
    cases h
    simp

/-! ## Numerals: their text and `parseFloat` -/

theorem isDigit_digitChar (d : Fin 10) : isDigit (digitChar d) = true := by
  revert d; decide

theorem digitChar_value (d : Fin 10) : (digitChar d).toNat - '0'.toNat = d.val := by
  revert d; decide

theorem digitChar_ne_minus (d : Fin 10) : digitChar d ≠ '-' := by
  revert d; decide

theorem takeWhile_digits_append (ds : List (Fin 10)) (tail : List Char) :
    (ds.map digitChar ++ tail).takeWhile isDigit =
      ds.map digitChar ++ tail.takeWhile isDigit := by
  induction ds with
  | nil => rfl
  | cons d ds ih => simp [List.takeWhile_cons, isDigit_digitChar, ih]

theorem dropWhile_digits_append (ds : List (Fin 10)) (tail : List Char) :
    (ds.map digitChar ++ tail).dropWhile isDigit = tail.dropWhile isDigit := by
  induction ds with
  | nil => rfl
  | cons d ds ih => simp [List.dropWhile_cons, isDigit_digitChar, ih]

theorem foldl_digits (ds : List (Fin 10)) (acc : ℕ) :
    (ds.map digitChar).foldl (fun acc d => 10 * acc + (d.toNat - '0'.toNat)) acc =
      acc * 10 ^ ds.length + natOfDigits ds := by
  induction ds generalizing acc with
  | nil => simp [natOfDigits]
  | cons d ds ih =>
    simp only [List.map_cons, List.foldl_cons, ih, digitChar_value, natOfDigits,
      List.length_cons]
    ring

theorem digitsValue_digits (ds : List (Fin 10)) :
    digitsValue (ds.map digitChar) = natOfDigits ds := by
  unfold digitsValue
  rw [foldl_digits]
  simp

theorem natOfDigits_append (a b : List (Fin 10)) :
    natOfDigits (a ++ b) = natOfDigits a * 10 ^ b.length + natOfDigits b := by
  induction a with
  | nil => simp [natOfDigits]
  | cons d ds ih =>
    rw [List.cons_append, natOfDigits, natOfDigits, ih, List.length_append]
    ring

theorem body_head_ne_minus (n : Numeral) : n.body.head? ≠ some '-' := by
  unfold Numeral.body
  cases hi : n.intDigits with
  | cons d ds =>
    simp only [List.map_cons, List.cons_append, List.head?_cons, ne_eq, Option.some.injEq]
    exact digitChar_ne_minus d
  | nil =>
    cases n.fracDigits with
    | none => simp
    | some f => simp

/-- What `parseFloat` computes on the unsigned text of a well-formed numeral. -/
theorem parseFloat_body_parts (n : Numeral) (h : n.wellFormed = true) :
    ¬ (n.body.takeWhile isDigit = [] ∧
        (match n.body.dropWhile isDigit with
         | '.' :: rest => rest.takeWhile isDigit
         | _ => []) = []) ∧
    ((digitsValue (n.body.takeWhile isDigit ++
        (match n.body.dropWhile isDigit with
         | '.' :: rest => rest.takeWhile isDigit
         | _ => [])) : ℚ) /
      (10 : ℚ) ^ (match n.body.dropWhile isDigit with
         | '.' :: rest => rest.takeWhile isDigit
         | _ => []).length) = n.magnitude := by
  obtain ⟨neg, ints, frac⟩ := n
  cases frac with
  | none =>
    have hw : ints ≠ [] := by
      intro hnil
      simp [Numeral.wellFormed, hnil] at h
    have h1 : (List.map digitChar ints ++ ([] : List Char)).takeWhile isDigit =
        List.map digitChar ints := by
      rw [takeWhile_digits_append]; simp
    have h2 : (List.map digitChar ints ++ ([] : List Char)).dropWhile isDigit = [] := by
      rw [dropWhile_digits_append]; simp
    simp only [Numeral.body, Numeral.magnitude, h1, h2]
    refine ⟨?_, ?_⟩
    · simp [hw]
    · simp [digitsValue_digits]
  | some f =>
    have hdot : isDigit '.' = false := by decide
    have h1 : (List.map digitChar ints ++ '.' :: List.map digitChar f).takeWhile isDigit =
        List.map digitChar ints := by
      rw [takeWhile_digits_append]; simp [List.takeWhile_cons, hdot]
    have h2 : (List.map digitChar ints ++ '.' :: List.map digitChar f).dropWhile isDigit =
        '.' :: List.map digitChar f := by
      rw [dropWhile_digits_append]; simp [List.dropWhile_cons, hdot]
    have h3 : (List.map digitChar f).takeWhile isDigit = List.map digitChar f := by
      have := takeWhile_digits_append f []
      simpa using this
    simp only [Numeral.body, Numeral.magnitude, h1, h2, h3]
    refine ⟨?_, ?_⟩
    · intro hboth
      simp only [List.map_eq_nil_iff] at hboth
      simp [Numeral.wellFormed, hboth.1, hboth.2] at h
    · rw [← List.map_append, digitsValue_digits, natOfDigits_append]
      have hpow : ((10 : ℚ) ^ f.length) ≠ 0 := pow_ne_zero _ (by norm_num)
      push_cast
      field_simp

theorem parseFloat_text (n : Numeral) (h : n.wellFormed = true) :
    parseFloat n.text = JSNum.fin n.value := by
  obtain ⟨hne, hval⟩ := parseFloat_body_parts n h
  cases hneg : n.negative with
  | true =>
    have htext : n.text = '-' :: n.body := by simp [Numeral.text, hneg]
    simp only [parseFloat, htext, List.head?_cons, List.tail_cons, if_true, hne, if_false,
      hval, Numeral.value, hneg, decide_True]
  | false =>
    have htext : n.text = n.body := by simp [Numeral.text, hneg]
    have hhead : ¬ (n.body.head? = some '-') := body_head_ne_minus n
    simp only [parseFloat, htext, hhead, decide_False, if_false, hne, hval, Numeral.value,
      hneg, Bool.false_eq_true]

/-! ## The tokenizer on well-formed expressions -/

theorem parseLoop_digits (ds : List (Fin 10)) (more : List Char) (st : ParseState) :
    parseLoop (ds.map digitChar ++ more) st =
      parseLoop more { st with currentNumber := st.currentNumber ++ ds.map digitChar } := by
  induction ds generalizing st with
  | nil => simp
  | cons d ds ih =>
    rw [List.map_cons, List.cons_append, parseLoop,
      parseStep_digit st (digitChar d) (by simp [isDigit_digitChar])]
    simp only
    rw [ih]
    simp

theorem parseLoop_body (n : Numeral) (more : List Char) (st : ParseState) :
    parseLoop (n.body ++ more) st =
      parseLoop more { st with currentNumber := st.currentNumber ++ n.body } := by
  unfold Numeral.body
  cases n.fracDigits with
  | none =>
    simp only [List.append_nil]
    exact parseLoop_digits n.intDigits more st
  | some f =>
    rw [List.append_assoc, parseLoop_digits, List.cons_append, parseLoop,
      parseStep_digit _ '.' (by decide)]
    simp only
    rw [parseLoop_digits]
    simp

theorem parseLoop_text (n : Numeral) (more : List Char) (tokens : List Token)
    (h : tokens = [] ∨ lastIsOperator tokens = true) :
    parseLoop (n.text ++ more) { tokens := tokens, currentNumber := [] } =
      parseLoop more { tokens := tokens, currentNumber := n.text } := by
  unfold Numeral.text
  cases n.negative with
  | false =>
    simp only [Bool.false_eq_true, if_false, List.nil_append]
    rw [parseLoop_body]
    simp
  | true =>
    simp only [if_true, List.cons_append, List.nil_append]
    have hstep : parseStep { tokens := tokens, currentNumber := [] } '-' =
        .ok { tokens := tokens, currentNumber := ['-'] } := by
      rw [parseStep_operator _ '-' (by decide) (by decide)]
      simp only [flush_nil]
      rw [if_pos]
      refine ⟨trivial, ?_⟩
      rcases h with h | h
      · left; simp [h]
      · right; exact h
    rw [parseLoop, hstep]
    simp only
    rw [parseLoop_body]
    simp

theorem text_ne_nil (n : Numeral) (h : n.wellFormed = true) : n.text ≠ [] := by
  obtain ⟨neg, ints, frac⟩ := n
  cases neg <;> cases ints <;> cases frac <;>
    simp_all [Numeral.text, Numeral.body, Numeral.wellFormed]

/-- The state `parse` reaches on a well-formed expression started after the
tokens `tokens`, and the token array it returns from there. -/
theorem parseLoop_expression (rest : List (BinOp × Numeral)) :
    ∀ (n : Numeral) (tokens : List Token),
      wellFormedExpression n rest = true →
      (tokens = [] ∨ lastIsOperator tokens = true) →
      ∃ st, parseLoop (n.text ++ pairsText rest)
          { tokens := tokens, currentNumber := [] } = .ok st ∧
        flush st.tokens st.currentNumber =
          tokens ++ Token.num (JSNum.fin n.value) :: pairTokens (pairValues rest) := by
  induction rest with
  | nil =>
    intro n tokens hwf _
    have hn : n.wellFormed = true := by simpa [wellFormedExpression] using hwf
    refine ⟨{ tokens := tokens, currentNumber := n.text }, ?_, ?_⟩
    · have := parseLoop_text n [] tokens ‹_›
      simpa [pairsText, parseLoop] using this
    · simp [flush_of_ne_nil _ _ (text_ne_nil n hn), parseFloat_text n hn, pairValues,
        pairTokens]
  | cons p rest ih =>
    intro n tokens hwf htok
    obtain ⟨o, m⟩ := p
    simp only [wellFormedExpression, List.all_cons, Bool.and_eq_true] at hwf
    obtain ⟨hn, hm, hrest⟩ := hwf
    have ho : isOperatorChar o.char = true := by cases o <;> decide
    have hwf' : wellFormedExpression m rest = true := by
      simp [wellFormedExpression, hm, hrest]
    obtain ⟨st, hst, hflush⟩ := ih m
      (tokens ++ [Token.num (JSNum.fin n.value)] ++ [Token.op o.char]) hwf'
      (Or.inr (lastIsOperator_append_op _ _ ho))
    refine ⟨st, ?_, ?_⟩
    · rw [pairsText, parseLoop_text n _ tokens htok, parseLoop,
        parseStep_binary _ o.char ho (Or.inr (text_ne_nil n hn))]
      simp only
      rw [flush_of_ne_nil _ _ (text_ne_nil n hn), parseFloat_text n hn]
      exact hst
    · rw [hflush]
      simp [pairValues, pairTokens]

theorem normalizeChar_plain (c : Char) (h : isPlain c = true) : normalizeChar c = c := by
  unfold normalizeChar
  split_ifs with h1 h2 h3
  · subst h1; revert h; decide
  · subst h2; revert h; decide
  · subst h3; revert h; decide
  · rfl

theorem normalize_plain (s : List Char) (h : s.all isPlain = true) : normalize s = s := by
  induction s with
  | nil => rfl
  | cons c rest ih =>
    simp only [List.all_cons, Bool.and_eq_true] at h
    simp only [normalize, List.map_cons] at ih ⊢
    rw [normalizeChar_plain c h.1, ih h.2]

theorem digits_plain (ds : List (Fin 10)) : (ds.map digitChar).all isPlain = true := by
  induction ds with
  | nil => rfl
  | cons d ds ih => simp [isPlain, isDigit_digitChar, ih]

theorem text_plain (n : Numeral) : n.text.all isPlain = true := by
  obtain ⟨neg, ints, frac⟩ := n
  have hdot : isPlain '.' = true := by decide
  have hminus : isPlain '-' = true := by decide
  cases neg <;> cases frac <;>
    simp [Numeral.text, Numeral.body, List.all_append, digits_plain, hdot, hminus]

theorem pairsText_plain (rest : List (BinOp × Numeral)) :
    (pairsText rest).all isPlain = true := by
  induction rest with
  | nil => rfl
  | cons p rest ih =>
    obtain ⟨o, m⟩ := p
    have ho : isPlain o.char = true := by cases o <;> decide
    simp [pairsText, List.all_append, ho, text_plain, ih]

theorem parse_expression (first : Numeral) (rest : List (BinOp × Numeral))
    (hwf : wellFormedExpression first rest = true) :
    parse (normalize (expressionText first rest)) =
      .ok (Token.num (JSNum.fin first.value) :: pairTokens (pairValues rest)) := by
  have hplain : (expressionText first rest).all isPlain = true := by
    simp [expressionText, List.all_append, text_plain, pairsText_plain]
  rw [normalize_plain _ hplain]
  obtain ⟨st, hst, hflush⟩ := parseLoop_expression rest first [] hwf (Or.inl rfl)
  unfold parse expressionText
  rw [hst]
  simp only [hflush, List.nil_append]

/-! ## The evaluator loop on well-formed expressions -/

theorem evalLoop_op_num (part : Char) (v : JSNum) (rest : List Token)
    (processed : List JSNum) :
    evalLoop (Token.op part :: Token.num v :: rest) processed =
      match switchCase part processed (some (Token.num v)) with
      | .ok (processed', true) => evalLoop rest processed'
      | .ok (processed', false) => evalLoop (Token.num v :: rest) processed'
      | .error e => .error e := by
  rw [evalLoop]

theorem evalLoop_pairs (rest : List (BinOp × ℚ)) :
    ∀ (processed : List JSNum) (cur : ℚ), noZeroDivisor rest = true →
      evalLoop (pairTokens rest) (processed ++ [JSNum.fin cur]) =
        .ok (processed ++ (termList cur rest).map JSNum.fin) := by
  induction rest with
  | nil =>
    intro processed cur _
    simp [pairTokens, termList, evalLoop]
  | cons p rest ih =>
    intro processed cur hz
    obtain ⟨o, v⟩ := p
    simp only [noZeroDivisor, List.all_cons, Bool.and_eq_true, decide_eq_true_eq] at hz
    obtain ⟨hv, hrest⟩ := hz
    have hrest' : noZeroDivisor rest = true := hrest
    rw [pairTokens, evalLoop_op_num]
    cases o with
    | add =>
      have hsw : switchCase '+' (processed ++ [JSNum.fin cur])
          (some (Token.num (JSNum.fin v))) = .ok (processed ++ [JSNum.fin cur], false) := by
        simp [switchCase]
      simp only [BinOp.char, hsw]
      rw [evalLoop_num, ih _ v hrest']
      simp [termList]
    | sub =>
      have hsw : switchCase '-' (processed ++ [JSNum.fin cur])
          (some (Token.num (JSNum.fin v))) =
          .ok (processed ++ [JSNum.fin cur] ++ [JSNum.fin (-v)], true) := by
        simp [switchCase, JSNum.neg]
      simp only [BinOp.char, hsw]
      rw [ih _ (-v) hrest']
      simp [termList]
    | mul =>
      have hsw : switchCase '*' (processed ++ [JSNum.fin cur])
          (some (Token.num (JSNum.fin v))) =
          .ok (processed ++ [JSNum.fin (cur * v)], true) := by
        simp [switchCase, JSNum.mul]
      simp only [BinOp.char, hsw]
      rw [ih _ (cur * v) hrest']
      simp [termList]
    | div =>
      have hv0 : v ≠ 0 := hv rfl
      have hsw : switchCase '/' (processed ++ [JSNum.fin cur])
          (some (Token.num (JSNum.fin v))) =
          .ok (processed ++ [JSNum.fin (cur / v)], true) := by
        simp [switchCase, JSNum.div, hv0]
      simp only [BinOp.char, hsw]
      rw [ih _ (cur / v) hrest']
      simp [termList]

theorem foldl_add_fin (l : List ℚ) (a : ℚ) :
    (l.map JSNum.fin).foldl JSNum.add (JSNum.fin a) = JSNum.fin (a + l.sum) := by
  induction l generalizing a with
  | nil => simp
  | cons x xs ih =>
    simp only [List.map_cons, List.foldl_cons, JSNum.add, ih, List.sum_cons]
    rw [add_assoc]

theorem sumProcessed_fin (l : List ℚ) :
    sumProcessed (l.map JSNum.fin) = JSNum.fin l.sum := by
  unfold sumProcessed
  rw [foldl_add_fin, zero_add]

/-! ## The loop's sum and the value of standard infix arithmetic -/

theorem groupTerms_first (first : ℚ) (rest : List (BinOp × ℚ)) :
    (groupTerms first rest).1.first = first := by
  cases rest with
  | nil => rfl
  | cons p rest =>
    obtain ⟨o, v⟩ := p
    simp only [groupTerms]
    split_ifs <;> rfl

theorem groupTerms_factors_multiplicative (first : ℚ) (rest : List (BinOp × ℚ)) :
    ∀ f ∈ (groupTerms first rest).1.factors, f.1.isMultiplicative = true := by
  induction rest generalizing first with
  | nil => simp [groupTerms]
  | cons p rest ih =>
    obtain ⟨o, v⟩ := p
    simp only [groupTerms]
    split_ifs with ho
    · intro f hf
      simp only [List.mem_cons] at hf
      rcases hf with rfl | hf
      · exact ho
      · exact ih v f hf
    · simp

theorem groupTerms_terms_additive (first : ℚ) (rest : List (BinOp × ℚ)) :
    ∀ s ∈ (groupTerms first rest).2, s.1.isMultiplicative = false := by
  induction rest generalizing first with
  | nil => simp [groupTerms]
  | cons p rest ih =>
    obtain ⟨o, v⟩ := p
    simp only [groupTerms]
    split_ifs with ho
    · exact ih v
    · intro s hs
      simp only [List.mem_cons] at hs
      rcases hs with rfl | hs
      · simpa using ho
      · exact ih v s hs

theorem apply_add (a b : ℚ) : BinOp.add.apply a b = a + b := rfl

theorem apply_sub (a b : ℚ) : BinOp.sub.apply a b = a - b := rfl

theorem apply_mul (a b : ℚ) : BinOp.mul.apply a b = a * b := rfl

theorem apply_div (a b : ℚ) : BinOp.div.apply a b = a / b := rfl

theorem foldl_factors_neg (fs : List (BinOp × ℚ))
    (h : ∀ f ∈ fs, f.1.isMultiplicative = true) (a : ℚ) :
    fs.foldl (fun acc f => f.1.apply acc f.2) (-a) =
      -(fs.foldl (fun acc f => f.1.apply acc f.2) a) := by
  induction fs generalizing a with
  | nil => rfl
  | cons f fs ih =>
    obtain ⟨o, v⟩ := f
    have ho := h (o, v) (List.mem_cons_self _ _)
    have hfs : ∀ f ∈ fs, f.1.isMultiplicative = true :=
      fun f hf => h f (List.mem_cons_of_mem _ hf)
    simp only [List.foldl_cons]
    cases o with
    | add => simp [BinOp.isMultiplicative] at ho
    | sub => simp [BinOp.isMultiplicative] at ho
    | mul => rw [apply_mul, apply_mul, neg_mul, ih hfs]
    | div => rw [apply_div, apply_div, neg_div, ih hfs]

theorem foldl_terms_shift (ts : List (BinOp × Term))
    (h : ∀ s ∈ ts, s.1.isMultiplicative = false) (a : ℚ) :
    ts.foldl (fun acc s => s.1.apply acc s.2.value) a =
      a + ts.foldl (fun acc s => s.1.apply acc s.2.value) 0 := by
  induction ts generalizing a with
  | nil => simp
  | cons s ts ih =>
    obtain ⟨o, t⟩ := s
    have ho := h (o, t) (List.mem_cons_self _ _)
    have hts : ∀ s ∈ ts, s.1.isMultiplicative = false :=
      fun s hs => h s (List.mem_cons_of_mem _ hs)
    simp only [List.foldl_cons]
    cases o with
    | mul => simp [BinOp.isMultiplicative] at ho
    | div => simp [BinOp.isMultiplicative] at ho
    | add =>
      rw [apply_add, apply_add, ih hts (a + t.value), ih hts (0 + t.value)]
      ring
    | sub =>
      rw [apply_sub, apply_sub, ih hts (a - t.value), ih hts (0 - t.value)]
      ring

theorem termList_sum (rest : List (BinOp × ℚ)) :
    ∀ (cur first : ℚ),
      (termList cur rest).sum =
        (groupTerms first rest).1.factors.foldl (fun acc f => f.1.apply acc f.2) cur +
          (groupTerms first rest).2.foldl (fun acc s => s.1.apply acc s.2.value) 0 := by
  induction rest with
  | nil =>
    intro cur first
    simp [termList, groupTerms]
  | cons p rest ih =>
    intro cur first
    obtain ⟨o, v⟩ := p
    have hval : (groupTerms v rest).1.value =
        (groupTerms v rest).1.factors.foldl (fun acc f => f.1.apply acc f.2) v := by
      rw [Term.value, groupTerms_first]
    cases o with
    | mul =>
      simp only [termList, groupTerms, BinOp.isMultiplicative, if_true, List.foldl_cons,
        apply_mul]
      exact ih (cur * v) v
    | div =>
      simp only [termList, groupTerms, BinOp.isMultiplicative, if_true, List.foldl_cons,
        apply_div]
      exact ih (cur / v) v
    | add =>
      simp only [termList, groupTerms, BinOp.isMultiplicative, Bool.false_eq_true, if_false,
        List.foldl_cons, List.foldl_nil, apply_add, List.sum_cons]
      rw [ih v v, foldl_terms_shift _ (groupTerms_terms_additive v rest)
        (0 + (groupTerms v rest).1.value), hval]
      ring
    | sub =>
      simp only [termList, groupTerms, BinOp.isMultiplicative, Bool.false_eq_true, if_false,
        List.foldl_cons, List.foldl_nil, apply_sub, List.sum_cons]
      rw [ih (-v) v, foldl_terms_shift _ (groupTerms_terms_additive v rest)
        (0 - (groupTerms v rest).1.value), hval,
        foldl_factors_neg _ (groupTerms_factors_multiplicative v rest)]
      ring

theorem termList_sum_eq_infixValue (first : ℚ) (rest : List (BinOp × ℚ)) :
    (termList first rest).sum = infixValue first rest := by
  rw [termList_sum rest first first]
  simp only [infixValue]
  rw [foldl_terms_shift _ (groupTerms_terms_additive first rest)
    (groupTerms first rest).1.value, Term.value, groupTerms_first]

/-- The tokens of a number followed by operator-number pairs with no zero
after `/` evaluate to the value of standard infix arithmetic. -/
theorem evaluateTokens_pairs (first : ℚ) (rest : List (BinOp × ℚ))
    (hz : noZeroDivisor rest = true) :
    evaluateTokens (Token.num (JSNum.fin first) :: pairTokens rest) =
      .ok (JSNum.fin (infixValue first rest)) := by
  unfold evaluateTokens
  rw [evalLoop_num]
  have := evalLoop_pairs rest [] first hz
  simp only [List.nil_append] at this ⊢
  rw [this]
  simp only
  rw [sumProcessed_fin, termList_sum_eq_infixValue]

/-- `evaluateExpression` on the text of a well-formed expression with no zero
after `/`. -/
theorem evaluateExpression_wellFormed (first : Numeral) (rest : List (BinOp × Numeral))
    (hwf : wellFormedExpression first rest = true)
    (hz : noZeroDivisor (pairValues rest) = true) :
    evaluateExpression (expressionText first rest) =
      .ok (JSNum.fin (infixValue first.value (pairValues rest))) := by
  unfold evaluateExpression
  rw [parse_expression first rest hwf]
  exact evaluateTokens_pairs first.value (pairValues rest) hz

/-! ## The tokenizer: white space -/

theorem parseLoop_filter_whitespace (s : List Char) (st : ParseState) :
    parseLoop (s.filter (fun c => !isWhitespace c)) st = parseLoop s st := by
  induction s generalizing st with
  | nil => rfl
  | cons c rest ih =>
    cases hw : isWhitespace c with
    | true =>
      rw [List.filter_cons_of_neg (by simp [hw]), parseLoop,
        parseStep_whitespace st c (isWhitespace_not_digit_dot c hw)
          (isWhitespace_not_operator c hw) hw]
      exact ih st
    | false =>
      rw [List.filter_cons_of_pos (by simp [hw]), parseLoop, parseLoop]
      cases parseStep st c with
      | ok st' => exact ih st'
      | error e => rfl

/-! ## Decimal digit strings of natural numbers -/

theorem digitChar_eq_core (d : Fin 10) : Nat.digitChar d.val = digitChar d := by
  revert d; decide

theorem toDigitsCore_digits (fuel : ℕ) :
    ∀ (n : ℕ) (acc : List (Fin 10)), n < fuel →
      ∃ ds : List (Fin 10), ds ≠ [] ∧
        Nat.toDigitsCore 10 fuel n (acc.map digitChar) = (ds ++ acc).map digitChar ∧
        natOfDigits ds = n := by
  induction fuel with
  | zero => intro n acc h; omega
  | succ fuel ih =>
    intro n acc hlt
    have hd : Nat.digitChar (n % 10) = digitChar ⟨n % 10, Nat.mod_lt _ (by norm_num)⟩ :=
      digitChar_eq_core ⟨n % 10, Nat.mod_lt _ (by norm_num)⟩
    by_cases h0 : n / 10 = 0
    · refine ⟨[⟨n % 10, Nat.mod_lt _ (by norm_num)⟩], by simp, ?_, ?_⟩
      · simp [Nat.toDigitsCore, h0, hd]
      · simp only [natOfDigits, List.length_nil, pow_zero, mul_one, add_zero]
        omega
    · have hlt' : n / 10 < fuel := by omega
      obtain ⟨ds, hne, hcore, hval⟩ :=
        ih (n / 10) (⟨n % 10, Nat.mod_lt _ (by norm_num)⟩ :: acc) hlt'
      refine ⟨ds ++ [⟨n % 10, Nat.mod_lt _ (by norm_num)⟩], by simp, ?_, ?_⟩
      · rw [Nat.toDigitsCore]
        simp only [h0, if_false, hd]
        rw [List.map_cons] at hcore
        rw [hcore]
        simp
      · rw [natOfDigits_append, hval]
        simp only [natOfDigits, List.length_cons, List.length_nil, pow_zero, mul_one,
          add_zero, zero_add, pow_one]
        omega

theorem toDigits_digits (n : ℕ) :
    ∃ ds : List (Fin 10), ds ≠ [] ∧ Nat.toDigits 10 n = ds.map digitChar ∧
      natOfDigits ds = n := by
  obtain ⟨ds, hne, hcore, hval⟩ := toDigitsCore_digits (n + 1) n [] (Nat.lt_succ_self n)
  exact ⟨ds, hne, by simpa [Nat.toDigits] using hcore, hval⟩

theorem unsigned_integer_numeral (ds : List (Fin 10)) (hne : ds ≠ []) :
    Numeral.wellFormed ⟨false, ds, none⟩ = true ∧
    Numeral.text ⟨false, ds, none⟩ = ds.map digitChar ∧
    Numeral.value ⟨false, ds, none⟩ = (natOfDigits ds : ℚ) := by
  refine ⟨?_, ?_, ?_⟩
  · cases ds with
    | nil => exact absurd rfl hne
    | cons d ds => simp [Numeral.wellFormed]
  · simp [Numeral.text, Numeral.body]
  · simp [Numeral.value, Numeral.magnitude]

/-! ## The tokenizer: where `Operator(-)` can stand -/

theorem minusFollowsNumber_append_num (tokens : List Token) (v : JSNum) (b : Bool) :
    minusFollowsNumber b (tokens ++ [Token.num v]) = minusFollowsNumber b tokens := by
  induction tokens generalizing b with
  | nil => simp [minusFollowsNumber]
  | cons t rest ih =>
    cases t with
    | num w =>
      rw [List.cons_append, minusFollowsNumber, minusFollowsNumber, ih]
    | op c =>
      rw [List.cons_append, minusFollowsNumber, minusFollowsNumber, ih]

theorem opsAreOperators_append (a b : List Token) :
    opsAreOperators (a ++ b) = (opsAreOperators a && opsAreOperators b) := by
  simp [opsAreOperators, List.all_append]

theorem lastIsOperator_cons (t : Token) (tokens : List Token) (h : tokens ≠ []) :
    lastIsOperator (t :: tokens) = lastIsOperator tokens := by
  cases tokens with
  | nil => exact absurd rfl h
  | cons u rest => simp [lastIsOperator, List.getLast?_cons_cons]

theorem minusFollowsNumber_append_op (tokens : List Token) (c : Char) :
    ∀ (b : Bool), minusFollowsNumber b tokens = true →
      (c ≠ '-' ∨ (tokens ≠ [] ∧ lastIsOperator tokens = false ∧
        opsAreOperators tokens = true)) →
      minusFollowsNumber b (tokens ++ [Token.op c]) = true := by
  induction tokens with
  | nil =>
    intro b _ hc
    rcases hc with hc | ⟨hne, -, -⟩
    · simp [minusFollowsNumber, hc]
    · exact absurd rfl hne
  | cons t rest ih =>
    intro b hb hc
    have hc' : rest ≠ [] → (c ≠ '-' ∨ (rest ≠ [] ∧ lastIsOperator rest = false ∧
        opsAreOperators rest = true)) := by
      intro hne
      rcases hc with hc | ⟨-, hl, ho⟩
      · exact Or.inl hc
      · refine Or.inr ⟨hne, ?_, ?_⟩
        · rwa [lastIsOperator_cons t rest hne] at hl
        · simp only [opsAreOperators, List.all_cons, Bool.and_eq_true] at ho ⊢
          exact ho.2
    cases t with
    | num w =>
      simp only [List.cons_append, minusFollowsNumber] at hb ⊢
      by_cases hne : rest = []
      · subst hne
        simp [minusFollowsNumber]
      · exact ih true hb (hc' hne)
    | op d =>
      simp only [List.cons_append, minusFollowsNumber, Bool.and_eq_true] at hb ⊢
      refine ⟨hb.1, ?_⟩
      by_cases hne : rest = []
      · subst hne
        rcases hc with hc | ⟨-, hl, ho⟩
        · simp [minusFollowsNumber, hc]
        · simp only [opsAreOperators, List.all_cons, List.all_nil, Bool.and_true] at ho
          simp [lastIsOperator, ho] at hl
      · exact ih false hb.2 (hc' hne)

theorem tokensInvariant_flush (tokens : List Token) (text : List Char)
    (h : tokensInvariant tokens) : tokensInvariant (flush tokens text) := by
  unfold flush
  split_ifs
  · exact ⟨by rw [minusFollowsNumber_append_num]; exact h.1,
      by rw [opsAreOperators_append, h.2]; rfl⟩
  · exact h

theorem parseStep_tokensInvariant (st st' : ParseState) (c : Char)
    (h : tokensInvariant st.tokens) (hstep : parseStep st c = .ok st') :
    tokensInvariant st'.tokens := by
  by_cases h1 : (isDigit c || decide (c = '.')) = true
  · rw [parseStep_digit st c h1] at hstep
    cases hstep
    exact h
  · have h1f : (isDigit c || decide (c = '.')) = false := by simpa using h1
    by_cases h2 : isOperatorChar c = true
    · rw [parseStep_operator st c h1f h2] at hstep
      have hf := tokensInvariant_flush st.tokens st.currentNumber h
      split_ifs at hstep with hcond
      · cases hstep
        exact hf
      · cases hstep
        refine ⟨minusFollowsNumber_append_op _ c false hf.1 ?_, ?_⟩
        · by_cases hm : c = '-'
          · right
            have hn : ¬ ((flush st.tokens st.currentNumber).length = 0 ∨
                lastIsOperator (flush st.tokens st.currentNumber) = true) :=
              fun hx => hcond ⟨hm, hx⟩
            rw [not_or] at hn
            refine ⟨?_, by simpa using hn.2, hf.2⟩
            intro hnil
            exact hn.1 (by rw [hnil]; rfl)
          · exact Or.inl hm
        · rw [opsAreOperators_append, hf.2]
          simp [opsAreOperators, h2]
    · have h2f : isOperatorChar c = false := by simpa using h2
      by_cases h3 : isWhitespace c = true
      · rw [parseStep_whitespace st c h1f h2f h3] at hstep
        cases hstep
        exact h
      · have hacc : isAccepted c = false := by
          simp only [isAccepted, h1f, h2f, Bool.false_or]
          simpa using h3
        rw [parseStep_invalid st c hacc] at hstep
        cases hstep

theorem parseLoop_tokensInvariant (s : List Char) (st st' : ParseState)
    (h : tokensInvariant st.tokens) (hloop : parseLoop s st = .ok st') :
    tokensInvariant st'.tokens := by
  induction s generalizing st with
  | nil =>
    simp only [parseLoop] at hloop
    cases hloop
    exact h
  | cons c rest ih =>
    rw [parseLoop] at hloop
    cases hstep : parseStep st c with
    | error e => rw [hstep] at hloop; cases hloop
    | ok st1 =>
      rw [hstep] at hloop
      exact ih st1 (parseStep_tokensInvariant st st1 c h hstep) hloop

theorem parse_tokensInvariant (s : List Char) (tokens : List Token)
    (h : parse s = .ok tokens) : tokensInvariant tokens := by
  unfold parse at h
  cases hloop : parseLoop s { tokens := [], currentNumber := [] } with
  | error e => rw [hloop] at h; cases h
  | ok st =>
    rw [hloop] at h
    cases h
    exact tokensInvariant_flush _ _
      (parseLoop_tokensInvariant s { tokens := [], currentNumber := [] } st
        ⟨rfl, rfl⟩ hloop)

theorem minusFollowsNumber_split (tokens : List Token) :
    ∀ (b : Bool) (pre post : List Token), minusFollowsNumber b tokens = true →
      tokens = pre ++ Token.op '-' :: post →
      (pre = [] ∧ b = true) ∨ ∃ pre' v, pre = pre' ++ [Token.num v] := by
  induction tokens with
  | nil =>
    intro b pre post _ h
    simp at h
  | cons t rest ih =>
    intro b pre post hb h
    cases pre with
    | nil =>
      simp only [List.nil_append, List.cons.injEq] at h
      obtain ⟨rfl, -⟩ := h
      simp only [minusFollowsNumber, ne_eq, not_true_eq_false, decide_False, Bool.false_or,
        Bool.and_eq_true] at hb
      exact Or.inl ⟨rfl, hb.1⟩
    | cons u pre1 =>
      simp only [List.cons_append, List.cons.injEq] at h
      obtain ⟨rfl, hrest⟩ := h
      right
      cases t with
      | num w =>
        simp only [minusFollowsNumber] at hb
        rcases ih true pre1 post hb hrest with ⟨rfl, -⟩ | ⟨pre', v, rfl⟩
        · exact ⟨[], w, rfl⟩
        · exact ⟨Token.num w :: pre', v, rfl⟩
      | op d =>
        simp only [minusFollowsNumber, Bool.and_eq_true] at hb
        rcases ih false pre1 post hb.2 hrest with ⟨-, hf⟩ | ⟨pre', v, rfl⟩
        · cases hf
        · exact ⟨Token.op d :: pre', v, rfl⟩

/-! ## The evaluator loop on the tokens of `parse` -/

theorem switchCase_consumed_ne_nil {part : Char} {processed processed' : List JSNum}
    {next : Option Token}
    (h : switchCase part processed next = .ok (processed', true)) :
    processed' ≠ [] := by
  unfold switchCase at h
  repeat' split at h
  all_goals first
    | (cases h; done)
    | (cases h; simp)

theorem switchCase_not_consumed {part : Char} {processed processed' : List JSNum}
    {next : Option Token}
    (h : switchCase part processed next = .ok (processed', false)) :
    part = '+' ∧ processed' = processed := by
  unfold switchCase at h
  repeat' split at h
  all_goals first
    | (cases h; done)
    | (cases h; exact ⟨‹_›, rfl⟩)

theorem evalLoop_op_single (part : Char) (processed : List JSNum) :
    evalLoop [Token.op part] processed =
      match switchCase part processed none with
      | .ok (processed', _) => .ok processed'
      | .error e => .error e := by
  rw [evalLoop]

theorem evalLoop_op_cons (part : Char) (next : Token) (rest : List Token)
    (processed : List JSNum) :
    evalLoop (Token.op part :: next :: rest) processed =
      match switchCase part processed (some next) with
      | .ok (processed', true) => evalLoop rest processed'
      | .ok (processed', false) => evalLoop (next :: rest) processed'
      | .error e => .error e := by
  rw [evalLoop]

/-- On tokens in which every `-` follows a number, no iteration meets `-`
with an empty `processed`. -/
theorem meetsMinusOnEmpty_false (n : ℕ) :
    ∀ (tokens : List Token) (processed : List JSNum) (b : Bool),
      tokens.length ≤ n → minusFollowsNumber b tokens = true →
      (b = true → processed ≠ []) →
      meetsMinusOnEmpty tokens processed = false := by
  induction n with
  | zero =>
    intro tokens processed b hlen _ _
    have hnil : tokens = [] := List.eq_nil_of_length_eq_zero (Nat.le_zero.mp hlen)
    subst hnil
    rfl
  | succ n ih =>
    intro tokens processed b hlen hb hp
    match tokens, hlen, hb with
    | [], _, _ => rfl
    | Token.num v :: rest, hlen, hb =>
      rw [meetsMinusOnEmpty]
      simp only [minusFollowsNumber] at hb
      exact ih rest _ true (by simpa using hlen) hb (fun _ => by simp)
    | [Token.op part], _, hb =>
      rw [meetsMinusOnEmpty]
      simp only [minusFollowsNumber, Bool.and_true, Bool.or_eq_true, decide_eq_true_eq] at hb
      rcases hb with hb | hb
      · simp [hb]
      · simp [hp hb]
    | Token.op part :: next :: rest, hlen, hb =>
      rw [meetsMinusOnEmpty]
      simp only [minusFollowsNumber, Bool.and_eq_true, Bool.or_eq_true,
        decide_eq_true_eq] at hb
      have hfirst : (decide (part = '-') && processed.isEmpty) = false := by
        rcases hb.1 with h1 | h1
        · simp [h1]
        · simp [hp h1]
      rw [hfirst, Bool.false_or]
      simp only [List.length_cons] at hlen
      cases hsw : switchCase part processed (some next) with
      | error e => rfl
      | ok r =>
        obtain ⟨p', fl⟩ := r
        cases fl with
        | false =>
          exact ih (next :: rest) p' false (by simp; omega) hb.2 (fun h => by cases h)
        | true =>
          obtain ⟨v, hv⟩ := switchCase_consumed_isNum hsw
          cases hv
          have hrest : minusFollowsNumber true rest = true := by
            have := hb.2
            simpa [minusFollowsNumber] using this
          exact ih rest p' true (by omega) hrest
            (fun _ => switchCase_consumed_ne_nil hsw)

/-- A successful run of the loop over a prefix of `parts` is the beginning of
the run over all of `parts`. -/
theorem evalLoop_append_of_ok (n : ℕ) :
    ∀ (tokens rest : List Token) (processed result : List JSNum),
      tokens.length ≤ n → evalLoop tokens processed = .ok result →
      evalLoop (tokens ++ rest) processed = evalLoop rest result := by
  induction n with
  | zero =>
    intro tokens rest processed result hlen h
    have hnil : tokens = [] := List.eq_nil_of_length_eq_zero (Nat.le_zero.mp hlen)
    subst hnil
    simp only [evalLoop] at h
    cases h
    rfl
  | succ n ih =>
    intro tokens rest processed result hlen h
    match tokens, hlen, h with
    | [], _, h =>
      simp only [evalLoop] at h
      cases h
      rfl
    | Token.num v :: more, hlen, h =>
      rw [evalLoop_num] at h
      rw [List.cons_append, evalLoop_num]
      exact ih more rest _ result (by simpa using hlen) h
    | [Token.op part], _, h =>
      rw [evalLoop_op_single] at h
      cases hsw : switchCase part processed none with
      | error e => rw [hsw] at h; cases h
      | ok r =>
        obtain ⟨p', fl⟩ := r
        rw [hsw] at h
        cases h
        cases fl with
        | true =>
          obtain ⟨v, hv⟩ := switchCase_consumed_isNum hsw
          cases hv
        | false =>
          obtain ⟨rfl, rfl⟩ := switchCase_not_consumed hsw
          cases rest with
          | nil => simp [evalLoop, switchCase]
          | cons t ts =>
            rw [List.singleton_append, evalLoop_op_cons]
            simp [switchCase]
    | Token.op part :: next :: more, hlen, h =>
      rw [evalLoop_op_cons] at h
      rw [List.cons_append, List.cons_append, evalLoop_op_cons]
      simp only [List.length_cons] at hlen
      cases hsw : switchCase part processed (some next) with
      | error e => rw [hsw] at h; cases h
      | ok r =>
        obtain ⟨p', fl⟩ := r
        rw [hsw] at h
        cases fl with
        | true => exact ih more rest p' result (by omega) h
        | false => exact ih (next :: more) rest p' result (by simp; omega) h

theorem evalLoop_plus (tokens : List Token) (processed : List JSNum) :
    evalLoop (Token.op '+' :: tokens) processed = evalLoop tokens processed := by
  cases tokens with
  | nil => simp [evalLoop, switchCase]
  | cons t ts =>
    rw [evalLoop_op_cons]
    simp [switchCase]

theorem switchCase_frame {part : Char} {processed processed' : List JSNum}
    {next : Option Token} {fl : Bool} (front : List JSNum)
    (h : switchCase part processed next = .ok (processed', fl))
    (hm : part = '-' → processed ≠ []) :
    switchCase part (front ++ processed) next = .ok (front ++ processed', fl) := by
  by_cases h1 : part = '+'
  · subst h1
    simp only [switchCase, if_true] at h ⊢
    cases h
    rfl
  by_cases h2 : part = '-'
  · subst h2
    have hne := hm rfl
    have hlen : processed.length > 0 := List.length_pos.mpr hne
    have hlen' : (front ++ processed).length > 0 := by
      rw [List.length_append]; omega
    rcases next with _ | (v | c)
    · simp [switchCase] at h
    · simp only [switchCase, hlen, hlen', if_true] at h ⊢
      simp only [show ¬ ('-' = '+') by decide, if_false] at h ⊢
      cases h
      simp
    · simp [switchCase] at h
  by_cases h3 : part = '*'
  · subst h3
    rcases next with _ | (v | c)
    · cases hl : processed.getLast? <;> simp [switchCase, hl] at h
    · cases hl : processed.getLast? with
      | none => simp [switchCase, hl] at h
      | some l =>
        have hne : processed ≠ [] := by
          intro hnil; rw [hnil] at hl; simp at hl
        have hl' : (front ++ processed).getLast? = some l := by
          rw [List.getLast?_append_of_ne_nil _ hne]; exact hl
        simp only [switchCase, hl, show ¬ ('*' = '+') by decide,
          show ¬ ('*' = '-') by decide, if_true, if_false] at h
        cases h
        simp only [switchCase, hl', show ¬ ('*' = '+') by decide,
          show ¬ ('*' = '-') by decide, if_true, if_false]
        rw [List.dropLast_append_of_ne_nil _ hne]
        simp
    · cases hl : processed.getLast? <;> simp [switchCase, hl] at h
  by_cases h4 : part = '/'
  · subst h4
    rcases next with _ | (v | c)
    · cases hl : processed.getLast? <;> simp [switchCase, hl] at h
    · cases hl : processed.getLast? with
      | none => simp [switchCase, hl] at h
      | some l =>
        have hne : processed ≠ [] := by
          intro hnil; rw [hnil] at hl; simp at hl
        have hl' : (front ++ processed).getLast? = some l := by
          rw [List.getLast?_append_of_ne_nil _ hne]; exact hl
        simp only [switchCase, hl, show ¬ ('/' = '+') by decide,
          show ¬ ('/' = '-') by decide, show ¬ ('/' = '*') by decide,
          if_true, if_false] at h
        cases h
        simp only [switchCase, hl', show ¬ ('/' = '+') by decide,
          show ¬ ('/' = '-') by decide, show ¬ ('/' = '*') by decide,
          if_true, if_false]
        rw [List.dropLast_append_of_ne_nil _ hne]
        simp
    · cases hl : processed.getLast? <;> simp [switchCase, hl] at h
  simp [switchCase, h1, h2, h3, h4] at h

/-- The run of the loop over tokens in which every `-` follows a number does
not depend on what `processed` holds below the entries the run itself pushes. -/
theorem evalLoop_frame (n : ℕ) :
    ∀ (tokens : List Token) (processed result front : List JSNum) (b : Bool),
      tokens.length ≤ n → minusFollowsNumber b tokens = true →
      (b = true → processed ≠ []) →
      evalLoop tokens processed = .ok result →
      evalLoop tokens (front ++ processed) = .ok (front ++ result) := by
  induction n with
  | zero =>
    intro tokens processed result front b hlen _ _ h
    have hnil : tokens = [] := List.eq_nil_of_length_eq_zero (Nat.le_zero.mp hlen)
    subst hnil
    simp only [evalLoop] at h ⊢
    cases h
    rfl
  | succ n ih =>
    intro tokens processed result front b hlen hb hp h
    match tokens, hlen, hb, h with
    | [], _, _, h =>
      simp only [evalLoop] at h ⊢
      cases h
      rfl
    | Token.num v :: rest, hlen, hb, h =>
      rw [evalLoop_num] at h ⊢
      simp only [minusFollowsNumber] at hb
      have := ih rest (processed ++ [v]) result front true (by simpa using hlen) hb
        (fun _ => by simp) h
      rwa [← List.append_assoc] at this
    | [Token.op part], _, hb, h =>
      rw [evalLoop_op_single] at h ⊢
      simp only [minusFollowsNumber, Bool.and_true, Bool.or_eq_true, decide_eq_true_eq] at hb
      cases hsw : switchCase part processed none with
      | error e => rw [hsw] at h; cases h
      | ok r =>
        obtain ⟨p', fl⟩ := r
        rw [hsw] at h
        cases h
        have hm : part = '-' → processed ≠ [] := by
          intro hpart
          rcases hb with hb | hb
          · exact absurd hpart hb
          · exact hp hb
        rw [switchCase_frame front hsw hm]
    | Token.op part :: next :: rest, hlen, hb, h =>
      rw [evalLoop_op_cons] at h ⊢
      simp only [minusFollowsNumber, Bool.and_eq_true, Bool.or_eq_true,
        decide_eq_true_eq] at hb
      simp only [List.length_cons] at hlen
      cases hsw : switchCase part processed (some next) with
      | error e => rw [hsw] at h; cases h
      | ok r =>
        obtain ⟨p', fl⟩ := r
        rw [hsw] at h
        have hm : part = '-' → processed ≠ [] := by
          intro hpart
          rcases hb.1 with hb1 | hb1
          · exact absurd hpart hb1
          · exact hp hb1
        rw [switchCase_frame front hsw hm]
        cases fl with
        | false =>
          exact ih (next :: rest) p' result front false (by simp; omega) hb.2
            (fun hx => by cases hx) h
        | true =>
          obtain ⟨v, hv⟩ := switchCase_consumed_isNum hsw
          cases hv
          have hrest : minusFollowsNumber true rest = true := by
            have := hb.2
            simpa [minusFollowsNumber] using this
          exact ih rest p' result front true (by omega) hrest
            (fun _ => switchCase_consumed_ne_nil hsw) h

/-! ## Sums of `processed` -/

theorem jsAdd_assoc (a b c : JSNum) :
    JSNum.add (JSNum.add a b) c = JSNum.add a (JSNum.add b c) := by
  cases a <;> cases b <;> cases c <;> simp [JSNum.add, add_assoc]

theorem jsAdd_zero_left (a : JSNum) : JSNum.add (JSNum.fin 0) a = a := by
  cases a <;> simp [JSNum.add]

theorem foldl_add_shift (l : List JSNum) (a : JSNum) :
    l.foldl JSNum.add a = JSNum.add a (l.foldl JSNum.add (JSNum.fin 0)) := by
  induction l generalizing a with
  | nil =>
    cases a <;> simp [JSNum.add]
  | cons x xs ih =>
    simp only [List.foldl_cons]
    rw [ih (JSNum.add a x), ih (JSNum.add (JSNum.fin 0) x), jsAdd_zero_left,
      jsAdd_assoc]

theorem sumProcessed_append (p q : List JSNum) :
    sumProcessed (p ++ q) = JSNum.add (sumProcessed p) (sumProcessed q) := by
  unfold sumProcessed
  rw [List.foldl_append, foldl_add_shift]

/-! ## The tokenizer after tokens already pushed -/

theorem flush_append (front tokens : List Token) (text : List Char) :
    flush (front ++ tokens) text = front ++ flush tokens text := by
  unfold flush
  split_ifs <;> simp

theorem lastIsOperator_append (front tokens : List Token) (h : tokens ≠ []) :
    lastIsOperator (front ++ tokens) = lastIsOperator tokens := by
  unfold lastIsOperator
  rw [List.getLast?_append_of_ne_nil _ h]

theorem parseStep_frame (front : List Token)
    (hfront : front = [] ∨ lastIsOperator front = true)
    (tokens : List Token) (text : List Char) (c : Char) (st' : ParseState)
    (h : parseStep { tokens := tokens, currentNumber := text } c = .ok st') :
    parseStep { tokens := front ++ tokens, currentNumber := text } c =
      .ok { tokens := front ++ st'.tokens, currentNumber := st'.currentNumber } := by
  by_cases h1 : (isDigit c || decide (c = '.')) = true
  · rw [parseStep_digit _ c h1] at h ⊢
    cases h
    rfl
  · have h1f : (isDigit c || decide (c = '.')) = false := by simpa using h1
    by_cases h2 : isOperatorChar c = true
    · rw [parseStep_operator _ c h1f h2] at h ⊢
      simp only [flush_append] at h ⊢
      have hcond : ((front ++ flush tokens text).length = 0 ∨
          lastIsOperator (front ++ flush tokens text) = true) ↔
          ((flush tokens text).length = 0 ∨ lastIsOperator (flush tokens text) = true) := by
        by_cases hx : flush tokens text = []
        · rw [hx, List.append_nil]
          simp only [List.length_nil, true_or, iff_true]
          rcases hfront with hf | hf
          · left; rw [hf]; rfl
          · right; exact hf
        · rw [lastIsOperator_append _ _ hx]
          have hl : (flush tokens text).length ≠ 0 := by
            rwa [Ne, List.length_eq_zero]
          have hl' : (front ++ flush tokens text).length ≠ 0 := by
            rw [List.length_append]; omega
          simp [hl, hl']
      by_cases hc : c = '-' ∧ ((flush tokens text).length = 0 ∨
          lastIsOperator (flush tokens text) = true)
      · rw [if_pos hc] at h
        rw [if_pos ⟨hc.1, hcond.mpr hc.2⟩]
        cases h
        rfl
      · rw [if_neg hc] at h
        rw [if_neg (fun hx => hc ⟨hx.1, hcond.mp hx.2⟩)]
        cases h
        simp
    · have h2f : isOperatorChar c = false := by simpa using h2
      by_cases h3 : isWhitespace c = true
      · rw [parseStep_whitespace _ c h1f h2f h3] at h ⊢
        cases h
        rfl
      · have hacc : isAccepted c = false := by
          simp only [isAccepted, h1f, h2f, Bool.false_or]
          simpa using h3
        rw [parseStep_invalid _ c hacc] at h
        cases h

theorem parseLoop_frame (front : List Token)
    (hfront : front = [] ∨ lastIsOperator front = true) (s : List Char) :
    ∀ (tokens : List Token) (text : List Char) (st' : ParseState),
      parseLoop s { tokens := tokens, currentNumber := text } = .ok st' →
      parseLoop s { tokens := front ++ tokens, currentNumber := text } =
        .ok { tokens := front ++ st'.tokens, currentNumber := st'.currentNumber } := by
  induction s with
  | nil =>
    intro tokens text st' h
    simp only [parseLoop] at h ⊢
    cases h
    rfl
  | cons c rest ih =>
    intro tokens text st' h
    rw [parseLoop] at h ⊢
    cases hstep : parseStep { tokens := tokens, currentNumber := text } c with
    | error e => rw [hstep] at h; cases h
    | ok st1 =>
      rw [hstep] at h
      rw [parseStep_frame front hfront tokens text c st1 hstep]
      exact ih st1.tokens st1.currentNumber st' h

/-- The tokens of `e1 + e2` are those of `e1`, then `+`, then those of `e2`. -/
theorem parse_plus (e1 e2 : List Char) (t1 t2 : List Token)
    (h1 : parse e1 = .ok t1) (h2 : parse e2 = .ok t2) :
    parse (e1 ++ '+' :: e2) = .ok (t1 ++ Token.op '+' :: t2) := by
  unfold parse at h1 h2 ⊢
  cases hl1 : parseLoop e1 { tokens := [], currentNumber := [] } with
  | error e => rw [hl1] at h1; cases h1
  | ok st1 =>
    cases hl2 : parseLoop e2 { tokens := [], currentNumber := [] } with
    | error e => rw [hl2] at h2; cases h2
    | ok st2 =>
      rw [hl1] at h1
      rw [hl2] at h2
      cases h1
      cases h2
      rw [parseLoop_append, hl1]
      simp only
      rw [parseLoop, parseStep_binary st1 '+' (by decide) (Or.inl (by decide))]
      simp only
      have hf := parseLoop_frame (flush st1.tokens st1.currentNumber ++ [Token.op '+'])
        (Or.inr (lastIsOperator_append_op _ '+' (by decide))) e2 [] [] st2 hl2
      rw [List.append_nil] at hf
      rw [hf]
      simp only [flush_append]
      simp

theorem normalize_plus (e1 e2 : List Char) :
    normalize (e1 ++ '+' :: e2) = normalize e1 ++ '+' :: normalize e2 := by
  have hplus : normalizeChar '+' = '+' := by decide
  simp [normalize, hplus]

/-- The loop over the tokens of two strings joined by `+`. -/
theorem evalLoop_plus_joined (t1 t2 : List Token) (p1 p2 : List JSNum)
    (h1 : evalLoop t1 [] = .ok p1) (h2 : evalLoop t2 [] = .ok p2)
    (hinv : minusFollowsNumber false t2 = true) :
    evalLoop (t1 ++ Token.op '+' :: t2) [] = .ok (p1 ++ p2) := by
  rw [evalLoop_append_of_ok t1.length t1 _ [] p1 le_rfl h1, evalLoop_plus]
  have := evalLoop_frame t2.length t2 [] p2 p1 false le_rfl hinv (fun h => by cases h) h2
  rwa [List.append_nil] at this

/-! ## Doubles: the naturals up to `2 ^ 53` -/

theorem halvings_spec (fuel : ℕ) :
    ∀ n : ℕ, 0 < n → n ≤ fuel →
      2 ^ halvings fuel n ≤ n ∧ n < 2 ^ (halvings fuel n + 1) := by
  induction fuel with
  | zero => intro n h0 hle; omega
  | succ fuel ih =>
    intro n h0 hle
    rw [halvings]
    by_cases h2 : n < 2
    · simp only [h2, if_true]
      omega
    · simp only [h2, if_false]
      obtain ⟨hlo, hhi⟩ := ih (n / 2) (Nat.div_pos (by omega) (by norm_num)) (by omega)
      constructor
      · calc 2 ^ (halvings fuel (n / 2) + 1) = 2 ^ halvings fuel (n / 2) * 2 := pow_succ _ _
          _ ≤ n / 2 * 2 := Nat.mul_le_mul_right 2 hlo
          _ ≤ n := Nat.div_mul_le_self n 2
      · have h1 : n / 2 + 1 ≤ 2 ^ (halvings fuel (n / 2) + 1) := hhi
        calc n < (n / 2 + 1) * 2 := by omega
          _ ≤ 2 ^ (halvings fuel (n / 2) + 1) * 2 := Nat.mul_le_mul_right 2 h1
          _ = 2 ^ (halvings fuel (n / 2) + 1 + 1) := (pow_succ _ _).symm

theorem leadingBit_spec (n : ℕ) (h : 0 < n) :
    2 ^ leadingBit n ≤ n ∧ n < 2 ^ (leadingBit n + 1) :=
  halvings_spec n n h le_rfl

theorem leadingBit_lt (n k : ℕ) (h : 0 < n) (hk : n < 2 ^ k) : leadingBit n < k := by
  have hlo := (leadingBit_spec n h).1
  exact (Nat.pow_lt_pow_iff_right (by norm_num : 1 < 2)).mp (lt_of_le_of_lt hlo hk)

theorem roundNearestEven_one (N : ℕ) : roundNearestEven N 1 = N := by
  simp [roundNearestEven, Nat.mod_one]

theorem binaryExponent_one (n : ℕ) (h : 0 < n) :
    binaryExponent n 1 = (leadingBit n : ℤ) := by
  have hlo := (leadingBit_spec n h).1
  have h1 : leadingBit 1 = 0 := by decide
  have hnot : ¬ (n < 1 * 2 ^ leadingBit n) := by omega
  simp [binaryExponent, h1, hnot, hlo]

theorem two_pow_mono (a b : ℕ) (h : a ≤ b) : 2 ^ a ≤ 2 ^ b :=
  Nat.pow_le_pow_right (Nat.succ_pos 1) h

/-- A natural number below `2 ^ 53` is a double. -/
theorem roundToDouble_natCast (n : ℕ) (h : n < 2 ^ 53) :
    roundToDouble (n : ℚ) = JSNum.fin n := by
  rcases Nat.eq_zero_or_pos n with rfl | hpos
  · simp [roundToDouble]
  have hq0 : (n : ℚ) ≠ 0 := by exact_mod_cast hpos.ne'
  have hqneg : ¬ ((n : ℚ) < 0) := by
    have : (0 : ℚ) ≤ n := Nat.cast_nonneg n
    exact not_lt.mpr this
  have hL : leadingBit n < 53 := leadingBit_lt n 53 hpos h
  have hnum : (n : ℚ).num.natAbs = n := by simp
  have hden : (n : ℚ).den = 1 := by simp
  unfold roundToDouble
  rw [if_neg hq0]
  simp only [hnum, hden, binaryExponent_one n hpos, hqneg, if_false, decide_False]
  have hu : max ((leadingBit n : ℤ) - 52) (-1074) = (leadingBit n : ℤ) - 52 := by
    apply max_eq_left
    omega
  rw [hu]
  by_cases h52 : leadingBit n = 52
  · have hz : ((leadingBit n : ℤ) - 52) = 0 := by omega
    rw [hz]
    have hover : ¬ (2 ^ 1024 ≤ n) := fun hbig =>
      absurd (Nat.lt_of_lt_of_le h (Nat.le_trans (two_pow_mono 53 1024 (by norm_num)) hbig))
        (Nat.lt_irrefl n)
    have hM : scaleRound n 1 0 = n := by
      simp [scaleRound, roundNearestEven_one]
    have hB : scaleBack n 0 = (n : ℚ) := by
      simp [scaleBack]
    rw [hM, hB, if_neg]
    rintro ⟨-, hbig⟩
    rw [Int.toNat_zero, pow_zero, mul_one] at hbig
    exact hover hbig
  · have hneg : ¬ (0 ≤ (leadingBit n : ℤ) - 52) := by omega
    have hk : (-((leadingBit n : ℤ) - 52)).toNat = 52 - leadingBit n := by omega
    simp only [scaleRound, scaleBack, hneg, if_false, false_and, hk, roundNearestEven_one]
    congr 1
    push_cast
    field_simp

theorem roundToDouble_natCast_le (n : ℕ) (h : n ≤ 2 ^ 53) :
    roundToDouble (n : ℚ) = JSNum.fin n := by
  rcases Nat.lt_or_eq_of_le h with hlt | rfl
  · exact roundToDouble_natCast n hlt
  · decide!

/-! ## Doubles: the tokenizer on digit strings -/

theorem parseStepDouble_digit (st : ParseState) (c : Char)
    (h : (isDigit c || decide (c = '.')) = true) :
    Double.parseStep st c = .ok { st with currentNumber := st.currentNumber ++ [c] } := by
  simp only [Double.parseStep, h, if_true]

theorem parseLoopDouble_digits (ds : List (Fin 10)) (st : ParseState) :
    Double.parseLoop (ds.map digitChar) st =
      .ok { st with currentNumber := st.currentNumber ++ ds.map digitChar } := by
  induction ds generalizing st with
  | nil => simp [Double.parseLoop]
  | cons d ds ih =>
    rw [List.map_cons, Double.parseLoop,
      parseStepDouble_digit st (digitChar d) (by simp [isDigit_digitChar])]
    simp only
    rw [ih]
    simp

/-- The double-precision `parse` and `evaluateExpression` on a digit string
whose value rounds to itself. -/
theorem double_digit_string (ds : List (Fin 10)) (hne : ds ≠ [])
    (hround : roundToDouble (natOfDigits ds : ℚ) = JSNum.fin (natOfDigits ds)) :
    Double.parse (ds.map digitChar) = .ok [Token.num (JSNum.fin (natOfDigits ds))] ∧
    Double.evaluateExpression (ds.map digitChar) = .ok (JSNum.fin (natOfDigits ds)) := by
  obtain ⟨hwf, htext, hv⟩ := unsigned_integer_numeral ds hne
  have hpf : Double.parseFloat (ds.map digitChar) = JSNum.fin (natOfDigits ds) := by
    have h := parseFloat_text ⟨false, ds, none⟩ hwf
    rw [htext, hv] at h
    rw [Double.parseFloat, h, JSNum.toDouble, hround]
  have hmap : ds.map digitChar ≠ [] := by
    simpa using hne
  have hparse : Double.parse (ds.map digitChar) =
      .ok [Token.num (JSNum.fin (natOfDigits ds))] := by
    unfold Double.parse
    rw [parseLoopDouble_digits]
    simp [Double.flush, hmap, hpf]
  refine ⟨hparse, ?_⟩
  unfold Double.evaluateExpression
  rw [normalize_plain _ (digits_plain ds), hparse]
  simp only
  unfold Double.evaluateTokens
  rw [Double.evalLoop, Double.evalLoop]
  simp only [Double.sumProcessed, List.nil_append, List.foldl_cons, List.foldl_nil,
    JSNum.add, zero_add, JSNum.toDouble, hround]

/-! ## Properties of the evaluator loop -/

/-- C5: a token sequence in which an `Operator(-)` is the last token, or is
followed by a token that is not a number, makes the evaluator loop of
`evaluateExpression` throw; the error is one of the `Invalid expression`
errors. -/
theorem minus_without_number_fails (pre rest : List Token)
    (hrest : noNumberNext rest = true) :
    ∃ e, evaluateTokens (pre ++ Token.op '-' :: rest) = .error e ∧
      e.isMalformed = true := by
  obtain ⟨e, he, hm⟩ :=
    evalLoop_missing_operand '-' (by decide) rest hrest pre.length pre [] le_rfl
  exact ⟨e, by simp [evaluateTokens, he], hm⟩

theorem minus_without_number_fails_witness :
    noNumberNext [Token.op '*', Token.num (JSNum.fin 2)] = true ∧
    ∃ e, evaluateTokens ([Token.num (JSNum.fin 3)] ++
        Token.op '-' :: [Token.op '*', Token.num (JSNum.fin 2)]) = .error e ∧
      e.isMalformed = true :=
  ⟨rfl, minus_without_number_fails [Token.num (JSNum.fin 3)]
    [Token.op '*', Token.num (JSNum.fin 2)] rfl⟩

/-- C4 (as stated, refuted): the tokens of "3++2" and of "3+*2" contain two
adjacent operator tokens, yet the evaluator returns 5 and 6. -/
theorem adjacent_operators_counterexample :
    parse "3++2".toList = .ok [Token.num (JSNum.fin 3), Token.op '+', Token.op '+',
        Token.num (JSNum.fin 2)] ∧
    evaluateTokens [Token.num (JSNum.fin 3), Token.op '+', Token.op '+',
        Token.num (JSNum.fin 2)] = .ok (JSNum.fin 5) ∧
    parse "3+*2".toList = .ok [Token.num (JSNum.fin 3), Token.op '+', Token.op '*',
        Token.num (JSNum.fin 2)] ∧
    evaluateTokens [Token.num (JSNum.fin 3), Token.op '+', Token.op '*',
        Token.num (JSNum.fin 2)] = .ok (JSNum.fin 6) := by
  decide!

/-- C4 (amended): a token sequence in which an operator token among `-`, `*`,
`/` is immediately followed by another operator token makes the evaluator
loop throw one of the `Invalid expression` errors; nothing is returned. -/
theorem adjacent_operators_fail (pre post : List Token) (c d : Char)
    (hc : needsOperand c = true) :
    ∃ e, evaluateTokens (pre ++ Token.op c :: Token.op d :: post) = .error e ∧
      e.isMalformed = true := by
  obtain ⟨e, he, hm⟩ :=
    evalLoop_missing_operand c hc (Token.op d :: post) rfl
      pre.length pre [] le_rfl
  exact ⟨e, by simp [evaluateTokens, he], hm⟩

theorem adjacent_operators_fail_witness :
    needsOperand '*' = true ∧
    ∃ e, evaluateTokens ([Token.num (JSNum.fin 3)] ++
        Token.op '*' :: Token.op '+' :: [Token.num (JSNum.fin 2)]) = .error e ∧
      e.isMalformed = true :=
  ⟨by decide, adjacent_operators_fail [Token.num (JSNum.fin 3)]
    [Token.num (JSNum.fin 2)] '*' '+' (by decide)⟩

/-- C6 (as stated, refuted): when the loop meets `Operator(-)` with an empty
`processed` and a number `n` next, it pushes `n` itself, not `-n`; the tokens
`['-', 5]` evaluate to 5. -/
theorem minus_on_empty_processed_not_negated :
    (∀ (n : JSNum) (rest : List Token),
      evalLoop (Token.op '-' :: Token.num n :: rest) [] = evalLoop rest [n]) ∧
    evaluateTokens [Token.op '-', Token.num (JSNum.fin 5)] = .ok (JSNum.fin 5) ∧
    evaluateTokens [Token.op '-', Token.num (JSNum.fin 5)] ≠ .ok (JSNum.fin (-5)) := by
  refine ⟨?_, by decide!, by decide!⟩
  intro n rest
  rw [evalLoop]
  simp [switchCase]

/-- C6 (amended): when the loop meets `Operator(-)` while `processed` is not
empty and the next token is `Number n`, it pushes `-n`; on the tokens of a
string `processed` is never empty when `Operator(-)` is met, because `parse`
makes a leading `-` the sign of the first number: for every unsigned numeral
`d` the string `-d` is the single token `Number (-d)` and evaluates to `-d`. -/
theorem minus_negates_next_number (processed : List JSNum) (n : JSNum)
    (rest : List Token) (d : Numeral) (hp : processed ≠ [])
    (hwf : d.wellFormed = true) (hpos : d.negative = false) :
    evalLoop (Token.op '-' :: Token.num n :: rest) processed =
      evalLoop rest (processed ++ [JSNum.neg n]) ∧
    (∀ s tokens, parse s = .ok tokens → meetsMinusOnEmpty tokens [] = false) ∧
    parse ('-' :: d.text) = .ok [Token.num (JSNum.fin (-d.value))] ∧
    evaluateExpression ('-' :: d.text) = .ok (JSNum.fin (-d.value)) := by
  have htext : expressionText { d with negative := true } [] = '-' :: d.text := by
    simp [expressionText, pairsText, Numeral.text, Numeral.body, hpos]
  have hval : Numeral.value { d with negative := true } = -d.value := by
    simp [Numeral.value, Numeral.magnitude, hpos]
  have hwfe : wellFormedExpression { d with negative := true } [] = true := by
    simp only [wellFormedExpression, List.all_nil, Bool.and_true]
    exact hwf
  refine ⟨?_, ?_, ?_, ?_⟩
  · have hlen : processed.length > 0 := List.length_pos.mpr hp
    rw [evalLoop_op_num]
    simp [switchCase, hlen]
  · intro s tokens h
    exact meetsMinusOnEmpty_false tokens.length tokens [] false le_rfl
      (parse_tokensInvariant s tokens h).1 (fun hb => by cases hb)
  · obtain ⟨st, hst, hflush⟩ :=
      parseLoop_expression [] { d with negative := true } [] hwfe (Or.inl rfl)
    have hst' : parseLoop ('-' :: d.text) { tokens := [], currentNumber := [] } =
        .ok st := by
      rw [← htext]; exact hst
    unfold parse
    rw [hst']
    simp only [hflush, hval, pairValues, pairTokens, List.map_nil, List.nil_append]
  · have h := evaluateExpression_wellFormed { d with negative := true } [] hwfe rfl
    rw [htext, hval] at h
    rw [h]
    simp [pairValues, infixValue, groupTerms, Term.value]

theorem minus_negates_next_number_witness :
    ([JSNum.fin 7] ≠ [] ∧ Numeral.wellFormed ⟨false, [2], some [5]⟩ = true ∧
      Numeral.negative ⟨false, [2], some [5]⟩ = false) ∧
    '-' :: Numeral.text ⟨false, [2], some [5]⟩ = "-2.5".toList ∧
    -Numeral.value ⟨false, [2], some [5]⟩ = -5 / 2 ∧
    (evalLoop (Token.op '-' :: Token.num (JSNum.fin 3) :: []) [JSNum.fin 7] =
      evalLoop [] ([JSNum.fin 7] ++ [JSNum.neg (JSNum.fin 3)]) ∧
    (∀ s tokens, parse s = .ok tokens → meetsMinusOnEmpty tokens [] = false) ∧
    parse ('-' :: Numeral.text ⟨false, [2], some [5]⟩) =
      .ok [Token.num (JSNum.fin (-Numeral.value ⟨false, [2], some [5]⟩))] ∧
    evaluateExpression ('-' :: Numeral.text ⟨false, [2], some [5]⟩) =
      .ok (JSNum.fin (-Numeral.value ⟨false, [2], some [5]⟩))) :=
  ⟨⟨by decide, by decide, rfl⟩, by decide, by decide!,
    minus_negates_next_number [JSNum.fin 7] (JSNum.fin 3) [] ⟨false, [2], some [5]⟩
      (by decide) (by decide) rfl⟩

/-! ## Properties of the tokenizer -/

/-- C2: `parse` throws exactly when the string contains a character that is
not a digit, not `.`, not one of `+ - * /` and not white space, and then the
error names such a character of the string; when there is no such character
`parse` returns a token sequence. -/
theorem parse_fails_iff_invalid_character (s : List Char) :
    ((∃ e, parse s = .error e) ↔ s.any (fun c => !isAccepted c) = true) ∧
    ((∃ c, c ∈ s ∧ isAccepted c = false ∧
        parse s = .error (CalcError.invalidCharacter c)) ↔
      s.any (fun c => !isAccepted c) = true) ∧
    ((∃ tokens, parse s = .ok tokens) ↔ s.all isAccepted = true) := by
  have hany : s.any (fun c => !isAccepted c) = true ↔ ¬ s.all isAccepted = true := by
    simp [List.any_eq_true, List.all_eq_true]
  have hfail : (∃ e, parse s = .error e) ↔ ¬ s.all isAccepted = true := by
    rw [← parse_ok_iff]
    constructor
    · rintro ⟨e, he⟩ ⟨tokens, ht⟩
      rw [he] at ht
      cases ht
    · intro hno
      cases hp : parse s with
      | ok tokens => exact absurd ⟨tokens, hp⟩ hno
      | error e => exact ⟨e, rfl⟩
  refine ⟨hfail.trans hany.symm, ⟨?_, ?_⟩, parse_ok_iff s⟩
  · rintro ⟨c, -, -, hc⟩
    exact hany.mpr (hfail.mp ⟨_, hc⟩)
  · intro h
    obtain ⟨e, he⟩ := hfail.mpr (hany.mp h)
    obtain ⟨c, hc, h1, h2⟩ := parse_error s e he
    exact ⟨c, hc, h2, by rw [he, h1]⟩

/-- C9: `evaluateExpression` has the same outcome on a string and on the
string with every `×`, `÷`, `−` replaced by `*`, `/`, `-`; none of the three
glyphs occurs in the text handed to `parse`, and none is ever reported as an
invalid character. -/
theorem glyphs_are_normalized (expression : List Char) :
    evaluateExpression expression = evaluateExpression (normalize expression) ∧
    (normalize expression).all (fun c => c ≠ '×' ∧ c ≠ '÷' ∧ c ≠ '−') = true ∧
    evaluateExpression expression ≠ .error (CalcError.invalidCharacter '×') ∧
    evaluateExpression expression ≠ .error (CalcError.invalidCharacter '÷') ∧
    evaluateExpression expression ≠ .error (CalcError.invalidCharacter '−') := by
  have hall : ∀ c ∈ normalize expression, c ≠ '×' ∧ c ≠ '÷' ∧ c ≠ '−' := by
    intro c hc
    simp only [normalize, List.mem_map] at hc
    obtain ⟨a, -, rfl⟩ := hc
    exact normalizeChar_ne_glyph a
  refine ⟨?_, ?_, ?_, ?_, ?_⟩
  · simp only [evaluateExpression, normalize_idem]
  · rw [List.all_eq_true]
    intro c hc
    simpa using hall c hc
  · intro h
    exact (hall _ (evaluateExpression_invalidCharacter _ _ h).1).1 rfl
  · intro h
    exact (hall _ (evaluateExpression_invalidCharacter _ _ h).1).2.1 rfl
  · intro h
    exact (hall _ (evaluateExpression_invalidCharacter _ _ h).1).2.2 rfl


/-! ## Properties of `evaluateExpression` on strings -/

/-- C3 (as stated, refuted): "3+" ends with an operator and evaluates to 3;
"3+-" and "3×−" end with an operator and evaluate to `NaN`. -/
theorem trailing_operator_counterexample :
    evaluateExpression "3+".toList = .ok (JSNum.fin 3) ∧
    evaluateExpression "3+-".toList = .ok JSNum.nan ∧
    evaluateExpression "3×−".toList = .ok JSNum.nan := by
  decide!

/-- C3 (amended): when the last character that is not white space is `*` or
`/` (or the glyph `×`, `÷`), or is `-` (or `−`) whose preceding character, up
to white space, is a digit or `.`, `evaluateExpression` throws instead of
returning a number; the error is one of the `Invalid expression` errors
exactly when every character of the normalized text before the operator is
accepted by `parse` (otherwise it is the invalid-character error). -/
theorem trailing_operator_fails (s ws : List Char) (c : Char)
    (hws : ws.all isWhitespace = true)
    (hc : c = '*' ∨ c = '/' ∨ c = '×' ∨ c = '÷' ∨
      ((c = '-' ∨ c = '−') ∧ ∃ s' d ws', s = s' ++ d :: ws' ∧
        (isDigit d = true ∨ d = '.') ∧ ws'.all isWhitespace = true)) :
    ∃ err, evaluateExpression (s ++ c :: ws) = .error err ∧
      err.isMalformed = (normalize s).all isAccepted := by
  have hnorm : normalize (s ++ c :: ws) = normalize s ++ normalizeChar c :: ws := by
    have h1 := normalize_whitespace ws hws
    simp only [normalize] at h1
    simp [normalize, h1]
  unfold evaluateExpression
  rw [hnorm]
  rcases hc with rfl | rfl | rfl | rfl | ⟨hm, s', d, ws', rfl, hd, hws'⟩
  · exact evaluate_trailing_operator (normalize s) ws '*' (by decide) (by decide)
      (Or.inl (by decide)) hws
  · exact evaluate_trailing_operator (normalize s) ws '/' (by decide) (by decide)
      (Or.inl (by decide)) hws
  · exact evaluate_trailing_operator (normalize s) ws '*' (by decide) (by decide)
      (Or.inl (by decide)) hws
  · exact evaluate_trailing_operator (normalize s) ws '/' (by decide) (by decide)
      (Or.inl (by decide)) hws
  · have hcn : normalizeChar c = '-' := by
      rcases hm with rfl | rfl <;> decide
    rw [hcn]
    exact evaluate_trailing_operator (normalize (s' ++ d :: ws')) ws '-' (by decide)
      (by decide)
      (Or.inr (fun st hst => pending_numeral_after_digit s' ws' d hd hws' st hst)) hws

theorem trailing_operator_fails_witness :
    ([' '].all isWhitespace = true ∧
    ('−' = '*' ∨ '−' = '/' ∨ '−' = '×' ∨ '−' = '÷' ∨
      (('−' = '-' ∨ '−' = '−') ∧ ∃ s' d ws', "4×3 ".toList = s' ++ d :: ws' ∧
        (isDigit d = true ∨ d = '.') ∧ ws'.all isWhitespace = true))) ∧
    ∃ err, evaluateExpression ("4×3 ".toList ++ '−' :: [' ']) = .error err ∧
      err.isMalformed = (normalize "4×3 ".toList).all isAccepted :=
  have hc : '−' = '*' ∨ '−' = '/' ∨ '−' = '×' ∨ '−' = '÷' ∨
      (('−' = '-' ∨ '−' = '−') ∧ ∃ s' d ws', "4×3 ".toList = s' ++ d :: ws' ∧
        (isDigit d = true ∨ d = '.') ∧ ws'.all isWhitespace = true) :=
    Or.inr (Or.inr (Or.inr (Or.inr ⟨Or.inr rfl, "4×".toList, '3', [' '], rfl,
      Or.inl (by decide), by decide⟩)))
  ⟨⟨by decide, hc⟩, trailing_operator_fails "4×3 ".toList [' '] '−' (by decide) hc⟩

/-! ## Properties of `evaluateExpression` on well-formed expressions -/

/-- C1: on the text of every well-formed expression of the fixed grammar (a
numeral with an optional `-` sign, then operator-numeral pairs) in which no
numeral after `/` is zero, `evaluateExpression` returns the value of standard
infix arithmetic over the rationals, `*` and `/` binding tighter than `+` and
`-` and each level associating to the left; "3+4×2" gives 11 and "10÷2−3"
gives 2. -/
theorem evaluateExpression_infix_arithmetic (first : Numeral)
    (rest : List (BinOp × Numeral))
    (hwf : wellFormedExpression first rest = true)
    (hz : noZeroDivisor (pairValues rest) = true) :
    evaluateExpression (expressionText first rest) =
        .ok (JSNum.fin (infixValue first.value (pairValues rest))) ∧
      evaluateExpression "3+4×2".toList = .ok (JSNum.fin 11) ∧
      evaluateExpression "10÷2−3".toList = .ok (JSNum.fin 2) :=
  ⟨evaluateExpression_wellFormed first rest hwf hz, by decide!, by decide!⟩

theorem evaluateExpression_infix_arithmetic_witness :
    (wellFormedExpression ⟨true, [1], some [5]⟩
        [(BinOp.sub, ⟨false, [4], none⟩), (BinOp.div, ⟨true, [2], none⟩),
          (BinOp.mul, ⟨false, [3], none⟩)] = true ∧
      noZeroDivisor (pairValues
        [(BinOp.sub, ⟨false, [4], none⟩), (BinOp.div, ⟨true, [2], none⟩),
          (BinOp.mul, ⟨false, [3], none⟩)]) = true) ∧
    expressionText ⟨true, [1], some [5]⟩
        [(BinOp.sub, ⟨false, [4], none⟩), (BinOp.div, ⟨true, [2], none⟩),
          (BinOp.mul, ⟨false, [3], none⟩)] = "-1.5-4/-2*3".toList ∧
    infixValue (Numeral.value ⟨true, [1], some [5]⟩) (pairValues
        [(BinOp.sub, ⟨false, [4], none⟩), (BinOp.div, ⟨true, [2], none⟩),
          (BinOp.mul, ⟨false, [3], none⟩)]) = 9 / 2 ∧
    (evaluateExpression (expressionText ⟨true, [1], some [5]⟩
        [(BinOp.sub, ⟨false, [4], none⟩), (BinOp.div, ⟨true, [2], none⟩),
          (BinOp.mul, ⟨false, [3], none⟩)]) =
        .ok (JSNum.fin (infixValue (Numeral.value ⟨true, [1], some [5]⟩) (pairValues
          [(BinOp.sub, ⟨false, [4], none⟩), (BinOp.div, ⟨true, [2], none⟩),
            (BinOp.mul, ⟨false, [3], none⟩)]))) ∧
      evaluateExpression "3+4×2".toList = .ok (JSNum.fin 11) ∧
      evaluateExpression "10÷2−3".toList = .ok (JSNum.fin 2)) :=
  ⟨⟨by decide, by decide!⟩, by decide, by decide!,
    evaluateExpression_infix_arithmetic ⟨true, [1], some [5]⟩
      [(BinOp.sub, ⟨false, [4], none⟩), (BinOp.div, ⟨true, [2], none⟩),
        (BinOp.mul, ⟨false, [3], none⟩)] (by decide) (by decide!)⟩

/-- C7: for a numeral `a`, an unsigned numeral `b` and an operator `o`, the
string `a o - b` evaluates to `a o (-b)`: the `-` after the operator is the
sign of `b` (exact arithmetic, `b` not zero when `o` is `/`); "3--2" gives 5
and "7×−2" gives -14. -/
theorem minus_after_operator_is_sign (a b : Numeral) (o : BinOp)
    (ha : a.wellFormed = true) (hb : b.wellFormed = true)
    (hpos : b.negative = false) (hz : o = BinOp.div → b.value ≠ 0) :
    evaluateExpression (a.text ++ o.char :: '-' :: b.text) =
        .ok (JSNum.fin (o.apply a.value (-b.value))) ∧
      evaluateExpression "3--2".toList = .ok (JSNum.fin 5) ∧
      evaluateExpression "7×−2".toList = .ok (JSNum.fin (-14)) := by
  refine ⟨?_, by decide!, by decide!⟩
  have htext : expressionText a [(o, { b with negative := true })] =
      a.text ++ o.char :: '-' :: b.text := by
    simp [expressionText, pairsText, Numeral.text, Numeral.body, hpos]
  have hval : Numeral.value { b with negative := true } = -b.value := by
    simp [Numeral.value, Numeral.magnitude, hpos]
  have hwf : wellFormedExpression a [(o, { b with negative := true })] = true := by
    simp only [wellFormedExpression, List.all_cons, List.all_nil, Bool.and_true,
      Bool.and_eq_true]
    exact ⟨ha, hb⟩
  have hzero : noZeroDivisor (pairValues [(o, { b with negative := true })]) = true := by
    simp only [noZeroDivisor, pairValues, List.map_cons, List.map_nil, List.all_cons,
      List.all_nil, Bool.and_true, decide_eq_true_eq, hval]
    intro ho
    exact neg_ne_zero.mpr (hz ho)
  have h := evaluateExpression_wellFormed a [(o, { b with negative := true })] hwf hzero
  rw [htext] at h
  rw [h]
  simp only [pairValues, List.map_cons, List.map_nil, hval]
  cases o <;> simp [infixValue, groupTerms, Term.value, BinOp.isMultiplicative]

theorem minus_after_operator_is_sign_witness :
    (Numeral.wellFormed ⟨false, [1, 2], none⟩ = true ∧
      Numeral.wellFormed ⟨false, [0], some [5]⟩ = true ∧
      Numeral.negative ⟨false, [0], some [5]⟩ = false ∧
      (BinOp.div = BinOp.div → Numeral.value ⟨false, [0], some [5]⟩ ≠ 0)) ∧
    Numeral.text ⟨false, [1, 2], none⟩ ++ BinOp.div.char :: '-' ::
        Numeral.text ⟨false, [0], some [5]⟩ = "12/-0.5".toList ∧
    BinOp.div.apply (Numeral.value ⟨false, [1, 2], none⟩)
        (-Numeral.value ⟨false, [0], some [5]⟩) = -24 ∧
    (evaluateExpression (Numeral.text ⟨false, [1, 2], none⟩ ++ BinOp.div.char :: '-' ::
        Numeral.text ⟨false, [0], some [5]⟩) =
        .ok (JSNum.fin (BinOp.div.apply (Numeral.value ⟨false, [1, 2], none⟩)
          (-Numeral.value ⟨false, [0], some [5]⟩))) ∧
      evaluateExpression "3--2".toList = .ok (JSNum.fin 5) ∧
      evaluateExpression "7×−2".toList = .ok (JSNum.fin (-14))) :=
  ⟨⟨by decide, by decide, rfl, fun _ => by decide!⟩, by decide, by decide!,
    minus_after_operator_is_sign ⟨false, [1, 2], none⟩ ⟨false, [0], some [5]⟩ BinOp.div
      (by decide) (by decide) rfl (fun _ => by decide!)⟩

/-- C8: for an unsigned numeral `a` and a numeral `b`, the string `- a + b`
evaluates to `b - a`: the leading `-` negates the first number only (exact
arithmetic); "-5+3" gives -2 and "−8+10" gives 2. -/
theorem leading_minus_negates_first (a b : Numeral)
    (ha : a.wellFormed = true) (hb : b.wellFormed = true)
    (hpos : a.negative = false) :
    evaluateExpression ('-' :: a.text ++ '+' :: b.text) =
        .ok (JSNum.fin (b.value - a.value)) ∧
      evaluateExpression "-5+3".toList = .ok (JSNum.fin (-2)) ∧
      evaluateExpression "−8+10".toList = .ok (JSNum.fin 2) := by
  refine ⟨?_, by decide!, by decide!⟩
  have htext : expressionText { a with negative := true } [(BinOp.add, b)] =
      '-' :: a.text ++ '+' :: b.text := by
    simp [expressionText, pairsText, Numeral.text, Numeral.body, hpos, BinOp.char]
  have hval : Numeral.value { a with negative := true } = -a.value := by
    simp [Numeral.value, Numeral.magnitude, hpos]
  have hwf : wellFormedExpression { a with negative := true } [(BinOp.add, b)] = true := by
    simp only [wellFormedExpression, List.all_cons, List.all_nil, Bool.and_true,
      Bool.and_eq_true]
    exact ⟨ha, hb⟩
  have hzero : noZeroDivisor (pairValues [(BinOp.add, b)]) = true := by
    simp [noZeroDivisor, pairValues]
  have h := evaluateExpression_wellFormed { a with negative := true } [(BinOp.add, b)]
    hwf hzero
  rw [htext] at h
  rw [h, hval]
  simp only [pairValues, List.map_cons, List.map_nil]
  simp [infixValue, groupTerms, Term.value, BinOp.isMultiplicative, apply_add]
  ring

theorem leading_minus_negates_first_witness :
    (Numeral.wellFormed ⟨false, [2], some [2, 5]⟩ = true ∧
      Numeral.wellFormed ⟨false, [1, 0], none⟩ = true ∧
      Numeral.negative ⟨false, [2], some [2, 5]⟩ = false) ∧
    '-' :: Numeral.text ⟨false, [2], some [2, 5]⟩ ++ '+' ::
        Numeral.text ⟨false, [1, 0], none⟩ = "-2.25+10".toList ∧
    Numeral.value ⟨false, [1, 0], none⟩ - Numeral.value ⟨false, [2], some [2, 5]⟩ =
      31 / 4 ∧
    (evaluateExpression ('-' :: Numeral.text ⟨false, [2], some [2, 5]⟩ ++ '+' ::
        Numeral.text ⟨false, [1, 0], none⟩) =
        .ok (JSNum.fin (Numeral.value ⟨false, [1, 0], none⟩ -
          Numeral.value ⟨false, [2], some [2, 5]⟩)) ∧
      evaluateExpression "-5+3".toList = .ok (JSNum.fin (-2)) ∧
      evaluateExpression "−8+10".toList = .ok (JSNum.fin 2)) :=
  ⟨⟨by decide, by decide, rfl⟩, by decide, by decide!,
    leading_minus_negates_first ⟨false, [2], some [2, 5]⟩ ⟨false, [1, 0], none⟩
      (by decide) (by decide) rfl⟩

/-- C10: division by zero is not an error: for every numeral `a` the string
`a/0` makes `evaluateExpression` return a number, `NaN` when `a` is zero and
the infinity of the sign of `a` otherwise; "5/0" gives `Infinity` and "0/0"
gives `NaN`. -/
theorem division_by_zero_returns (a : Numeral) (ha : a.wellFormed = true) :
    evaluateExpression (a.text ++ ['/', '0']) =
        .ok (if a.value = 0 then JSNum.nan
             else if a.value < 0 then JSNum.negInf else JSNum.posInf) ∧
      evaluateExpression "5/0".toList = .ok JSNum.posInf ∧
      evaluateExpression "0/0".toList = .ok JSNum.nan := by
  refine ⟨?_, by decide!, by decide!⟩
  have htext : expressionText a [(BinOp.div, ⟨false, [0], none⟩)] =
      a.text ++ ['/', '0'] := by
    simp [expressionText, pairsText, Numeral.text, Numeral.body, BinOp.char, digitChar]
  have hzero : Numeral.value ⟨false, [0], none⟩ = 0 := by
    simp [Numeral.value, Numeral.magnitude, natOfDigits]
  have hwf : wellFormedExpression a [(BinOp.div, ⟨false, [0], none⟩)] = true := by
    simp only [wellFormedExpression, List.all_cons, List.all_nil, Bool.and_true,
      Bool.and_eq_true]
    exact ⟨ha, by decide⟩
  have hp := parse_expression a [(BinOp.div, ⟨false, [0], none⟩)] hwf
  rw [htext] at hp
  unfold evaluateExpression
  rw [hp]
  simp only [pairValues, List.map_cons, List.map_nil, hzero, pairTokens, BinOp.char]
  unfold evaluateTokens
  rw [evalLoop_num, evalLoop_op_num]
  by_cases h0 : a.value = 0
  · simp [switchCase, JSNum.div, h0, evalLoop, sumProcessed, JSNum.add]
  · by_cases hneg : a.value < 0
    · simp [switchCase, JSNum.div, h0, hneg, evalLoop, sumProcessed, JSNum.add,
        JSNum.infOfSign]
    · simp [switchCase, JSNum.div, h0, hneg, evalLoop, sumProcessed, JSNum.add,
        JSNum.infOfSign]

theorem division_by_zero_returns_witness :
    Numeral.wellFormed ⟨true, [7], some []⟩ = true ∧
    Numeral.text ⟨true, [7], some []⟩ ++ ['/', '0'] = "-7./0".toList ∧
    (evaluateExpression (Numeral.text ⟨true, [7], some []⟩ ++ ['/', '0']) =
        .ok (if Numeral.value ⟨true, [7], some []⟩ = 0 then JSNum.nan
             else if Numeral.value ⟨true, [7], some []⟩ < 0 then JSNum.negInf
             else JSNum.posInf) ∧
      evaluateExpression "5/0".toList = .ok JSNum.posInf ∧
      evaluateExpression "0/0".toList = .ok JSNum.nan) :=
  ⟨by decide, by decide, division_by_zero_returns ⟨true, [7], some []⟩ (by decide)⟩

/-! ## Further properties of the tokenizer and the evaluator -/

/-- C11: white space is skipped: `parse` has the same outcome, tokens or the
same invalid-character error, on a string and on the string with every white
space character removed; white space between digits does not end the numeral,
"1 2" is the single number 12. -/
theorem whitespace_is_skipped (s : List Char) :
    parse s = parse (s.filter (fun c => !isWhitespace c)) ∧
    parse "1 2".toList = .ok [Token.num (JSNum.fin 12)] := by
  refine ⟨?_, by decide!⟩
  unfold parse
  rw [parseLoop_filter_whitespace]

/-- In exact arithmetic, for every natural number `n`, `parse` turns the
decimal digit string of `n` into the single token `Number n`, and
`evaluateExpression` of that string returns `n`. -/
theorem decimal_string_round_trip (n : ℕ) :
    parse (Nat.toDigits 10 n) = .ok [Token.num (JSNum.fin n)] ∧
    evaluateExpression (Nat.toDigits 10 n) = .ok (JSNum.fin n) := by
  obtain ⟨ds, hne, hds, hval⟩ := toDigits_digits n
  obtain ⟨hwf, htext, hv⟩ := unsigned_integer_numeral ds hne
  have hwfe : wellFormedExpression ⟨false, ds, none⟩ [] = true := by
    simp [wellFormedExpression, hwf]
  have hexpr : expressionText ⟨false, ds, none⟩ [] = Nat.toDigits 10 n := by
    simp [expressionText, pairsText, htext, hds]
  have hvn : Numeral.value ⟨false, ds, none⟩ = (n : ℚ) := by
    rw [hv, hval]
  constructor
  · obtain ⟨st, hst, hflush⟩ := parseLoop_expression [] ⟨false, ds, none⟩ [] hwfe (Or.inl rfl)
    have hst' : parseLoop (Nat.toDigits 10 n) { tokens := [], currentNumber := [] } =
        .ok st := by
      rw [← hexpr]; exact hst
    unfold parse
    rw [hst']
    simp only [hflush, hvn, pairValues, pairTokens, List.map_nil, List.nil_append]
  · have h := evaluateExpression_wellFormed ⟨false, ds, none⟩ [] hwfe rfl
    rw [hexpr, hvn] at h
    rw [h]
    simp [pairValues, infixValue, groupTerms, Term.value]

/-- C12 (as stated, refuted): the digit string of `2 ^ 53 + 1` is read as the
number `2 ^ 53`, the nearest double, by `parse` and by `evaluateExpression`;
a one followed by 400 zeros is read as `Infinity`. -/
theorem decimal_string_round_trip_counterexample :
    Nat.toDigits 10 9007199254740993 = "9007199254740993".toList ∧
    Double.parse (Nat.toDigits 10 9007199254740993) =
      .ok [Token.num (JSNum.fin 9007199254740992)] ∧
    Double.evaluateExpression (Nat.toDigits 10 9007199254740993) =
      .ok (JSNum.fin 9007199254740992) ∧
    JSNum.fin 9007199254740992 ≠ JSNum.fin ((9007199254740993 : ℕ) : ℚ) ∧
    Double.evaluateExpression ('1' :: List.replicate 400 '0') = .ok JSNum.posInf := by
  decide!

/-- C12 (amended): for every natural number `n` up to `2 ^ 53`, `parse` turns
the decimal digit string of `n` into the single token `Number n`, and
`evaluateExpression` of that string returns `n`, in double precision. -/
theorem decimal_string_round_trip_double (n : ℕ) (h : n ≤ 2 ^ 53) :
    Double.parse (Nat.toDigits 10 n) = .ok [Token.num (JSNum.fin n)] ∧
    Double.evaluateExpression (Nat.toDigits 10 n) = .ok (JSNum.fin n) := by
  obtain ⟨ds, hne, hds, hval⟩ := toDigits_digits n
  have hround : roundToDouble (natOfDigits ds : ℚ) = JSNum.fin (natOfDigits ds) := by
    rw [hval]
    exact roundToDouble_natCast_le n h
  have := double_digit_string ds hne hround
  rw [hval, ← hds] at this
  exact this

theorem decimal_string_round_trip_double_witness :
    9007199254740992 ≤ 2 ^ 53 ∧
    Nat.toDigits 10 9007199254740992 = "9007199254740992".toList ∧
    (Double.parse (Nat.toDigits 10 9007199254740992) =
      .ok [Token.num (JSNum.fin (9007199254740992 : ℕ))] ∧
    Double.evaluateExpression (Nat.toDigits 10 9007199254740992) =
      .ok (JSNum.fin (9007199254740992 : ℕ))) :=
  ⟨by decide, by decide, decimal_string_round_trip_double 9007199254740992 (by decide)⟩

/-- C17: for every numeral `d`, `parse` turns `--d` into the three tokens
`NaN`, `-`, `d`: the buffer `-` left by the first `-` is flushed through
`parseFloat`, which gives `NaN`, when the second `-` arrives; and
`evaluateExpression` of `--d` returns `NaN` without throwing. -/
theorem double_leading_minus (d : Numeral) (hwf : d.wellFormed = true) :
    parseFloat ['-'] = JSNum.nan ∧
    parseLoop ['-', '-'] { tokens := [], currentNumber := [] } =
      .ok { tokens := [Token.num (parseFloat ['-']), Token.op '-'], currentNumber := [] } ∧
    parse ('-' :: '-' :: d.text) =
      .ok [Token.num JSNum.nan, Token.op '-', Token.num (JSNum.fin d.value)] ∧
    evaluateExpression ('-' :: '-' :: d.text) = .ok JSNum.nan := by
  have hnan : parseFloat ['-'] = JSNum.nan := by decide
  have hloop : parseLoop ['-', '-'] { tokens := [], currentNumber := [] } =
      .ok { tokens := [Token.num (parseFloat ['-']), Token.op '-'],
            currentNumber := [] } := by decide
  have hparse : parse ('-' :: '-' :: d.text) =
      .ok [Token.num JSNum.nan, Token.op '-', Token.num (JSNum.fin d.value)] := by
    have happ : '-' :: '-' :: d.text = ['-', '-'] ++ d.text := rfl
    unfold parse
    rw [happ, parseLoop_append, hloop]
    simp only
    have ht := parseLoop_text d [] [Token.num (parseFloat ['-']), Token.op '-']
      (Or.inr (by decide))
    rw [List.append_nil] at ht
    rw [ht]
    simp [parseLoop, flush_of_ne_nil _ _ (text_ne_nil d hwf), parseFloat_text d hwf, hnan]
  refine ⟨hnan, hloop, hparse, ?_⟩
  have hplain : ('-' :: '-' :: d.text).all isPlain = true := by
    have hminus : isPlain '-' = true := by decide
    simp [List.all_cons, hminus, text_plain]
  unfold evaluateExpression
  rw [normalize_plain _ hplain, hparse]
  simp only
  unfold evaluateTokens
  rw [evalLoop_num, evalLoop_op_num]
  simp [switchCase, evalLoop, sumProcessed, JSNum.add, JSNum.neg]

theorem double_leading_minus_witness :
    Numeral.wellFormed ⟨false, [5], none⟩ = true ∧
    '-' :: '-' :: Numeral.text ⟨false, [5], none⟩ = "--5".toList ∧
    Numeral.value ⟨false, [5], none⟩ = 5 ∧
    (parseFloat ['-'] = JSNum.nan ∧
    parseLoop ['-', '-'] { tokens := [], currentNumber := [] } =
      .ok { tokens := [Token.num (parseFloat ['-']), Token.op '-'], currentNumber := [] } ∧
    parse ('-' :: '-' :: Numeral.text ⟨false, [5], none⟩) =
      .ok [Token.num JSNum.nan, Token.op '-',
        Token.num (JSNum.fin (Numeral.value ⟨false, [5], none⟩))] ∧
    evaluateExpression ('-' :: '-' :: Numeral.text ⟨false, [5], none⟩) = .ok JSNum.nan) :=
  ⟨by decide, by decide, by decide!,
    double_leading_minus ⟨false, [5], none⟩ (by decide)⟩

/-- C15: when `evaluateExpression` returns on `e1` and on `e2`, it returns on
`e1 + e2` and the result is the sum of the two results (exact arithmetic); the
tokens of `e1 + e2` are the tokens of `e1`, then `Operator(+)`, then the
tokens of `e2`. -/
theorem plus_separates_terms (e1 e2 : List Char) (v1 v2 : JSNum)
    (h1 : evaluateExpression e1 = .ok v1) (h2 : evaluateExpression e2 = .ok v2) :
    evaluateExpression (e1 ++ '+' :: e2) = .ok (JSNum.add v1 v2) ∧
    ∃ t1 t2, parse (normalize e1) = .ok t1 ∧ parse (normalize e2) = .ok t2 ∧
      parse (normalize (e1 ++ '+' :: e2)) = .ok (t1 ++ Token.op '+' :: t2) := by
  unfold evaluateExpression at h1 h2
  cases hp1 : parse (normalize e1) with
  | error e => rw [hp1] at h1; cases h1
  | ok t1 =>
    cases hp2 : parse (normalize e2) with
    | error e => rw [hp2] at h2; cases h2
    | ok t2 =>
      rw [hp1] at h1
      rw [hp2] at h2
      simp only at h1 h2
      have hp : parse (normalize (e1 ++ '+' :: e2)) = .ok (t1 ++ Token.op '+' :: t2) := by
        rw [normalize_plus]
        exact parse_plus _ _ t1 t2 hp1 hp2
      refine ⟨?_, t1, t2, rfl, rfl, hp⟩
      unfold evaluateTokens at h1 h2
      cases hl1 : evalLoop t1 [] with
      | error e => rw [hl1] at h1; cases h1
      | ok p1 =>
        cases hl2 : evalLoop t2 [] with
        | error e => rw [hl2] at h2; cases h2
        | ok p2 =>
          rw [hl1] at h1
          rw [hl2] at h2
          cases h1
          cases h2
          unfold evaluateExpression
          rw [hp]
          simp only
          unfold evaluateTokens
          rw [evalLoop_plus_joined t1 t2 p1 p2 hl1 hl2 (parse_tokensInvariant _ t2 hp2).1]
          simp only
          rw [sumProcessed_append]

theorem plus_separates_terms_witness :
    (evaluateExpression "2×3".toList = .ok (JSNum.fin 6) ∧
      evaluateExpression "-4/8".toList = .ok (JSNum.fin (-1 / 2))) ∧
    JSNum.add (JSNum.fin 6) (JSNum.fin (-1 / 2)) = JSNum.fin (11 / 2) ∧
    (evaluateExpression ("2×3".toList ++ '+' :: "-4/8".toList) =
        .ok (JSNum.add (JSNum.fin 6) (JSNum.fin (-1 / 2))) ∧
      ∃ t1 t2, parse (normalize "2×3".toList) = .ok t1 ∧
        parse (normalize "-4/8".toList) = .ok t2 ∧
        parse (normalize ("2×3".toList ++ '+' :: "-4/8".toList)) =
          .ok (t1 ++ Token.op '+' :: t2)) :=
  ⟨⟨by decide!, by decide!⟩, by decide!,
    plus_separates_terms "2×3".toList "-4/8".toList (JSNum.fin 6) (JSNum.fin (-1 / 2))
      (by decide!) (by decide!)⟩

/-- C16: in the tokens `parse` returns, every `Operator(-)` stands right after
a number token (so it is never first and never follows an operator); and when
the loop of `evaluateExpression` runs over these tokens, no iteration meets
`-` with an empty `processed`, so the branch of line 267 is never taken. -/
theorem minus_token_follows_number (s : List Char) (tokens : List Token)
    (h : parse s = .ok tokens) :
    (∀ pre post, tokens = pre ++ Token.op '-' :: post →
      ∃ pre' v, pre = pre' ++ [Token.num v]) ∧
    meetsMinusOnEmpty tokens [] = false := by
  have hinv := (parse_tokensInvariant s tokens h).1
  constructor
  · intro pre post hsplit
    rcases minusFollowsNumber_split tokens false pre post hinv hsplit with ⟨-, hb⟩ | hx
    · cases hb
    · exact hx
  · exact meetsMinusOnEmpty_false tokens.length tokens [] false le_rfl hinv
      (fun hb => by cases hb)

theorem minus_token_follows_number_witness :
    parse "-3--2-1".toList = .ok [Token.num (JSNum.fin (-3)), Token.op '-',
        Token.num (JSNum.fin (-2)), Token.op '-', Token.num (JSNum.fin 1)] ∧
    ((∀ pre post, [Token.num (JSNum.fin (-3)), Token.op '-',
        Token.num (JSNum.fin (-2)), Token.op '-', Token.num (JSNum.fin 1)] =
          pre ++ Token.op '-' :: post →
      ∃ pre' v, pre = pre' ++ [Token.num v]) ∧
    meetsMinusOnEmpty [Token.num (JSNum.fin (-3)), Token.op '-',
        Token.num (JSNum.fin (-2)), Token.op '-', Token.num (JSNum.fin 1)] [] = false) :=
  ⟨by decide!, minus_token_follows_number "-3--2-1".toList _ (by decide!)⟩

/-! ## Properties of the display handlers -/

/-- C13 (as stated, refuted): the display text "-0", reached from the cleared
state by the point, negation and backspace buttons, becomes "0" after one
`toggleNegation` and stays "0" after the second. -/
theorem toggleNegation_twice_counterexample :
    (runClicks [Click.point, Click.negation, Click.backspace] cleared).number =
      "-0".toList ∧
    (toggleNegation (toggleNegation
      (runClicks [Click.point, Click.negation, Click.backspace] cleared))).number =
      "0".toList ∧
    (toggleNegation (toggleNegation
      (runClicks [Click.point, Click.negation, Click.backspace] cleared))).number ≠
      (runClicks [Click.point, Click.negation, Click.backspace] cleared).number := by
  decide

/-- C13 (amended): when the display text contains no `-`, or is `-` followed
by a text without `-` other than "0", applying `toggleNegation` twice gives
back the same state. -/
theorem toggleNegation_twice (st : Calculator)
    (h : '-' ∉ st.number ∨
      ∃ u, st.number = '-' :: u ∧ '-' ∉ u ∧ u ≠ ['0']) :
    toggleNegation (toggleNegation st) = st := by
  obtain ⟨number, calculation, isAnswered, selectedNumber⟩ := st
  simp only at h
  rcases h with h | ⟨u, rfl, hu, hu0⟩
  · by_cases h0 : number = ['0']
    · subst h0
      rfl
    · have h1 : toggleNegation ⟨number, calculation, isAnswered, selectedNumber⟩ =
          ⟨'-' :: number, calculation, isAnswered, selectedNumber⟩ := by
        simp [toggleNegation, h, h0]
      rw [h1]
      simp [toggleNegation]
  · have h1 : toggleNegation ⟨'-' :: u, calculation, isAnswered, selectedNumber⟩ =
        ⟨u, calculation, isAnswered, selectedNumber⟩ := by
      simp [toggleNegation]
    rw [h1]
    simp [toggleNegation, hu, hu0]

theorem toggleNegation_twice_witness :
    ('-' ∉ (runClicks [Click.number 4, Click.point, Click.number 2, Click.negation]
        cleared).number ∨
      ∃ u, (runClicks [Click.number 4, Click.point, Click.number 2, Click.negation]
        cleared).number = '-' :: u ∧ '-' ∉ u ∧ u ≠ ['0']) ∧
    (runClicks [Click.number 4, Click.point, Click.number 2, Click.negation]
        cleared).number = "-4.2".toList ∧
    toggleNegation (toggleNegation
      (runClicks [Click.number 4, Click.point, Click.number 2, Click.negation] cleared)) =
      runClicks [Click.number 4, Click.point, Click.number 2, Click.negation] cleared :=
  have h : '-' ∉ (runClicks [Click.number 4, Click.point, Click.number 2, Click.negation]
        cleared).number ∨
      ∃ u, (runClicks [Click.number 4, Click.point, Click.number 2, Click.negation]
        cleared).number = '-' :: u ∧ '-' ∉ u ∧ u ≠ ['0'] :=
    Or.inr ⟨"4.2".toList, by decide, by decide, by decide⟩
  ⟨h, by decide, toggleNegation_twice _ h⟩

/-- C14: `handlePoint` appends `.` to a display text without `.` and leaves a
text with `.` unchanged; a text with at most one `.` has exactly one
afterwards, and applying `handlePoint` twice is the same as applying it once. -/
theorem handlePoint_adds_one_point (st : Calculator) :
    (handlePoint st).number =
      (if '.' ∈ st.number then st.number else st.number ++ ['.']) ∧
    (handlePoint st).number.count '.' = max 1 (st.number.count '.') ∧
    (st.number.count '.' ≤ 1 → (handlePoint st).number.count '.' = 1) ∧
    handlePoint (handlePoint st) = handlePoint st := by
  have hcount : (handlePoint st).number.count '.' = max 1 (st.number.count '.') := by
    by_cases h : '.' ∈ st.number
    · have hpos : 0 < st.number.count '.' := List.count_pos_iff.mpr h
      simp only [handlePoint, h, not_true_eq_false, if_false]
      omega
    · have hzero : st.number.count '.' = 0 := List.count_eq_zero_of_not_mem h
      simp [handlePoint, h, hzero]
  refine ⟨?_, hcount, ?_, ?_⟩
  · by_cases h : '.' ∈ st.number <;> simp [handlePoint, h]
  · intro hle
    rw [hcount]
    omega
  · by_cases h : '.' ∈ st.number
    · simp [handlePoint, h]
    · simp [handlePoint, h]

/-- C18 (the code at the failing input): from the cleared state, the clicks
`5`, negation, backspace leave the display text "-", and a further negation
click leaves it empty. -/
theorem display_becomes_empty :
    (runClicks [Click.number 5, Click.negation, Click.backspace] cleared).number =
      "-".toList ∧
    (runClicks [Click.number 5, Click.negation, Click.backspace, Click.negation]
      cleared).number = [] := by
  decide

end JsCalculator
